import Mathlib

/-!
Shallow embedding of the Lisp-family interpreter in `src/mutable.py`
(class `Sexp`, class `Env`, class `Procedure`), together with theorems
settling the frozen claims C1-C10 about it.

Modelling conventions:
* Python `int` is `Int`; Python `float` literals are carried as exact
  rationals (`ℚ`) — no claim exercises inexact float arithmetic.
* Python exceptions are constructors of `Err`; `Err.syntaxEOF` and
  `Err.syntaxCloseParen` are the two `SyntaxError` raises of the reader
  (messages 'unexpected EOF while reading' and 'unexpected )'), the other
  constructors are host-level faults (IndexError, ValueError, TypeError,
  AttributeError, ZeroDivisionError).
* The mutable `Env` objects form an acyclic parent-linked heap; we model
  the heap explicitly: a `State` owns the list of frames, an environment
  reference is an index into it, and `define` replaces the frame in place.
* Recursion in the source is modelled with an explicit fuel argument; the
  fuel only bounds recursion depth (the host call stack), it never changes
  a result that is produced.
-/

/-- Expression tree produced by the reader: a Python int, float, str (Symbol)
or list, exactly the shapes `Sexp.read_from_tokens` can return. -/
inductive Sexpr where
  | int (n : Int)
  | float (q : ℚ)
  | sym (s : String)
  | list (l : List Sexpr)

/-- Errors: the two reader `SyntaxError`s plus the host-level exceptions the
interpreter can raise. `fuel` models exhaustion of the host call stack and
is never produced on any run that terminates within the given fuel. -/
inductive Err where
  | syntaxEOF
  | syntaxCloseParen
  | indexError
  | valueError
  | typeError
  | zeroDivision
  | attributeError
  | hostDiverge
  | fuel
deriving DecidableEq

/-- The primitive callables installed by `Sexp.standard_env` (`operator` module
functions and the builtin `print`). -/
inductive Prim where
  | add | sub | mul | div | gt | lt | ge | le | eq | printP | andP | orP | notP
deriving DecidableEq

/-- Runtime values: numbers, Python bools (returned by comparisons), `None`
(returned by the `define`/`print` statement branch), primitive callables,
and `Procedure` closures (parameter list expression, unevaluated body, and
the index of the captured defining environment frame). -/
inductive Value where
  | int (n : Int)
  | float (q : ℚ)
  | bool (b : Bool)
  | none
  | prim (p : Prim)
  | procedure (parms : Sexpr) (body : Sexpr) (envIdx : Nat)

/-- One `Env` object: its own dict of bindings plus the reference to the
outer environment (`None` for the global frame). -/
structure FrameData where
  bindings : List (String × Value)
  outer : Option Nat

/-- The interpreter heap: all `Env` frames ever created (an environment
reference is an index into `frames`; the global environment is index 0),
plus the lines written to stdout by the `print` builtin. -/
structure State where
  frames : List FrameData
  output : List String

/-! ## Tokenizer (`Sexp.tokenize`) -/

/-- Textual effect of `s.replace('(', ' ( ').replace(')', ' ) ')` on one
character. -/
def expandParens (c : Char) : List Char :=
  if c = '(' then [' ', '(', ' ']
  else if c = ')' then [' ', ')', ' ']
  else [c]

/-- Python `str.split()` with no argument: split on runs of whitespace,
discarding empty pieces.  `acc` holds the characters of the current token
in reverse. -/
def splitWsGo (acc : List Char) : List Char → List String
  | [] => if acc.isEmpty then [] else [String.mk acc.reverse]
  | c :: rest =>
    if c.isWhitespace then
      if acc.isEmpty then splitWsGo [] rest
      else String.mk acc.reverse :: splitWsGo [] rest
    else splitWsGo (c :: acc) rest

/-- `Sexp.tokenize`: surround every parenthesis with spaces, then split on
whitespace runs. -/
def tokenize (s : String) : List String :=
  splitWsGo [] (s.data.flatMap expandParens)

/-! ## Atom classification (`Sexp.atom`) -/

/-- Decimal value of a digit string. -/
def digitsToNat (cs : List Char) : Nat :=
  cs.foldl (fun a c => 10 * a + (c.toNat - '0'.toNat)) 0

/-- Python `int(token)` on a whitespace-free token: an optional sign followed
by at least one digit (digit-group underscores are not modelled; no token in
the verified properties contains them). `none` models the `ValueError`
branch that `Sexp.atom` catches. -/
def parseIntChars? : List Char → Option Int
  | [] => Option.none
  | '+' :: rest =>
    if rest ≠ [] ∧ rest.all Char.isDigit then some (Int.ofNat (digitsToNat rest))
    else Option.none
  | '-' :: rest =>
    if rest ≠ [] ∧ rest.all Char.isDigit then some (-(Int.ofNat (digitsToNat rest)))
    else Option.none
  | cs =>
    if cs.all Char.isDigit then some (Int.ofNat (digitsToNat cs)) else Option.none

/-- Python `int(token)`. -/
def parseInt? (t : String) : Option Int :=
  parseIntChars? t.data

/-- Split a character list at the first exponent marker `e`/`E`. -/
def splitExpChar : List Char → List Char × Option (List Char)
  | [] => ([], Option.none)
  | c :: rest =>
    if c = 'e' ∨ c = 'E' then ([], some rest)
    else
      let (m, e) := splitExpChar rest
      (c :: m, e)

/-- Unsigned mantissa of a Python float literal: `digits`, `digits.`,
`digits.digits` or `.digits`. -/
def parseMant? (cs : List Char) : Option ℚ :=
  let intPart := cs.takeWhile Char.isDigit
  let rest := cs.dropWhile Char.isDigit
  match rest with
  | [] => if intPart.isEmpty then Option.none else some ((digitsToNat intPart : ℚ))
  | '.' :: frac =>
    if frac.all Char.isDigit ∧ (¬ intPart.isEmpty ∨ ¬ frac.isEmpty) then
      some ((digitsToNat intPart : ℚ) + (digitsToNat frac : ℚ) / ((10 : ℚ) ^ frac.length))
    else Option.none
  | _ => Option.none

/-- Python `float(token)` on a whitespace-free token, restricted to the
decimal core of the grammar: optional sign, mantissa, optional exponent
(`inf`/`nan` literals and digit-group underscores are not modelled; no token
in the verified properties uses them).  The value is kept exact as a
rational. -/
def parseFloat? (t : String) : Option ℚ :=
  let (sign, cs) : ℚ × List Char :=
    match t.data with
    | '+' :: rest => (1, rest)
    | '-' :: rest => (-1, rest)
    | cs => (1, cs)
  let (mantCs, expCs) := splitExpChar cs
  match parseMant? mantCs with
  | Option.none => Option.none
  | some m =>
    match expCs with
    | Option.none => some (sign * m)
    | some ecs =>
      match parseIntChars? ecs with
      | Option.none => Option.none
      | some e => some (sign * m * (10 : ℚ) ^ (e : ℤ))

/-- `Sexp.atom`: try `int(token)`, on failure try `float(token)`, on failure
the token verbatim is a Symbol. -/
def atom (token : String) : Sexpr :=
  match parseInt? token with
  | some n => .int n
  | Option.none =>
    match parseFloat? token with
    | some q => .float q
    | Option.none => .sym token

/-! ## Reader (`Sexp.read_from_tokens`)

The source reads one expression from the front of a mutated token list:

* empty token list: `raise SyntaxError('unexpected EOF while reading')`;
* token `(`: loop `while tokens[0] != ')'` appending `read_from_tokens(tokens)`,
  then pop the `)` — note `tokens[0]` on an exhausted list raises a host
  `IndexError`, not a `SyntaxError`;
* token `)`: `raise SyntaxError('unexpected )')`;
* otherwise the token is an atom.

`readListAux gas tokens` is the `while` loop (reading list elements until the
closing `)`), with the inner `read_from_tokens` recursive call inlined.  The
`gas` argument only bounds recursion depth; `read_from_tokens` supplies
`tokens.length + 1`, which is always sufficient because every recursive call
consumes at least one token, so the `Err.fuel` branch is unreachable. -/

/-- The element-reading loop of `Sexp.read_from_tokens`, returning the list
elements together with the tokens remaining after the consumed `)`.  In the
inlined per-element read (`sub`), the `elif ')' == token` branch of the
source is unreachable — the loop guard has already dispatched a leading
`)` — so it is omitted; `read_from_tokens` itself keeps it. -/
def readListAux : Nat → List String → Except Err (List Sexpr × List String)
  | 0, _ => .error .fuel
  | gas + 1, tokens =>
    match tokens with
    | [] => .error .indexError
    | ")" :: rest => .ok ([], rest)
    | token :: rest =>
      let sub : Except Err (Sexpr × List String) :=
        match token with
        | "(" =>
          match readListAux gas rest with
          | .error e => .error e
          | .ok (l, rem) => .ok (.list l, rem)
        | _ => .ok (atom token, rest)
      match sub with
      | .error e => .error e
      | .ok (e, rem) =>
        match readListAux gas rem with
        | .error er => .error er
        | .ok (l, rem₂) => .ok (e :: l, rem₂)

/-- `Sexp.read_from_tokens`: read one expression from the front of the token
list, returning it together with the unconsumed remainder (the source mutates
the list in place; the remainder is what is left in it). -/
def read_from_tokens (tokens : List String) : Except Err (Sexpr × List String) :=
  match tokens with
  | [] => .error .syntaxEOF
  | "(" :: rest =>
    match readListAux (rest.length + 1) rest with
    | .error e => .error e
    | .ok (l, rem) => .ok (.list l, rem)
  | ")" :: _ => .error .syntaxCloseParen
  | token :: rest => .ok (atom token, rest)

/-- `Sexp.parse`: tokenize, then read one expression; tokens left unread in
the mutated list are discarded. -/
def parse (program : String) : Except Err Sexpr :=
  match read_from_tokens (tokenize program) with
  | .error e => .error e
  | .ok (e, _) => .ok e

/-! ## Environments (`class Env`)

An `Env` is a dict of bindings plus an `outer` reference.  The heap of all
frames lives in `State.frames`; an environment reference is an index into it.
-/

/-- Python dict lookup on a frame's bindings. -/
def lookupB : List (String × Value) → String → Option Value
  | [], _ => Option.none
  | (k', v) :: rest, k => if k' = k then some v else lookupB rest k

/-- Python dict assignment `d[k] = v`: overwrite the existing entry for `k`
or append a new one. -/
def updateB : List (String × Value) → String → Value → List (String × Value)
  | [], k, v => [(k, v)]
  | (k', v') :: rest, k, v =>
    if k' = k then (k, v) :: rest else (k', v') :: updateB rest k v

/-- Recursion worker for `Env.find`.  The source recurses on `self.outer`;
frames are created with a strictly smaller (pre-existing) frame as `outer`,
so the walk strictly decreases the frame index and `gas = i + 1` can never
run out on a program-built chain (`Err.hostDiverge` models the infinite
recursion the source would perform on an impossible cyclic chain). -/
def findAux (st : State) (var : String) : Nat → Nat → Except Err Nat
  | _, 0 => .error .hostDiverge
  | i, gas + 1 =>
    match st.frames[i]? with
    | Option.none => .error .indexError
    | some fr =>
      if (lookupB fr.bindings var).isSome then .ok i
      else
        match fr.outer with
        | Option.none => .error .attributeError
        | some j => if j < i then findAux st var j gas else .error .hostDiverge

/-- `Env.find`: walk from frame `i` outward through `outer` links and return
the index of the innermost frame whose own dict contains `var`; if the chain
is exhausted, `raise AttributeError("This arithmetic symbol does not exist")`
(constructor `Err.attributeError`). -/
def find (st : State) (i : Nat) (var : String) : Except Err Nat :=
  findAux st var i (i + 1)

/-- Append a freshly constructed `Env(parms, args, outer)` frame to the heap;
its index is the old `frames.length`. -/
def pushFrame (st : State) (b : List (String × Value)) (outer : Nat) : State :=
  { st with frames := st.frames ++ [⟨b, some outer⟩] }

/-- In-place dict assignment `env[var] = v` on frame `i` (the `define` /
`print` statement branch of `Sexp.eval`). -/
def setVar (st : State) (i : Nat) (var : String) (v : Value) : State :=
  let fr := st.frames[i]?.getD ⟨[], Option.none⟩
  { st with frames := st.frames.set i ⟨updateB fr.bindings var v, fr.outer⟩ }

/-- `Env.__init__`: `self.update(zip(parms, args))` — pair parameters with
arguments positionally, stopping at the shorter list.  The parameters the
interpreter ever zips are the Symbols of a `lambda` parameter list; a
parameter that is not a Symbol would become a non-string dict key (never a
resolvable variable), which we do not model (`Err.typeError`). -/
def zipBind : List Sexpr → List Value → List (String × Value) →
    Except Err (List (String × Value))
  | [], _, acc => .ok acc
  | _, [], acc => .ok acc
  | p :: ps, a :: args, acc =>
    match p with
    | .sym s => zipBind ps args (updateB acc s a)
    | _ => .error .typeError

/-- The dict of the fresh frame built by `Env(parms, args, outer)` when a
`Procedure` is invoked.  A `parms` expression that is not a list would be
zipped as a host iterable (e.g. a string, character by character), which we
do not model (`Err.typeError`). -/
def bindParams (parms : Sexpr) (args : List Value) :
    Except Err (List (String × Value)) :=
  match parms with
  | .list ps => zipBind ps args []
  | _ => .error .typeError

/-! ## Primitives (`Sexp.standard_env`) -/

/-- Python truthiness (`bool(x)`) of a runtime value: numbers are truthy when
nonzero, `None` is falsy, callables are truthy. -/
def truthy : Value → Bool
  | .int n => n ≠ 0
  | .float q => q ≠ 0
  | .bool b => b
  | .none => false
  | .prim _ => true
  | .procedure _ _ _ => true

/-- View a value as a Python number: `bool` is an `int` subclass (`True = 1`,
`False = 0`); `inl` is an exact int, `inr` a float. -/
def asNum : Value → Option (Int ⊕ ℚ)
  | .int n => some (.inl n)
  | .bool b => some (.inl (if b then 1 else 0))
  | .float q => some (.inr q)
  | _ => Option.none

/-- Numeric view as a rational (exact for ints, the carried value for
floats). -/
def numToQ : Int ⊕ ℚ → ℚ
  | .inl n => (n : ℚ)
  | .inr q => q

/-- Python binary arithmetic: int op int stays int, any float operand makes
the result float, non-numbers raise `TypeError`. -/
def arith (fi : Int → Int → Int) (fq : ℚ → ℚ → ℚ) (a b : Value) :
    Except Err Value :=
  match asNum a, asNum b with
  | some (.inl x), some (.inl y) => .ok (.int (fi x y))
  | some x, some y => .ok (.float (fq (numToQ x) (numToQ y)))
  | _, _ => .error .typeError

/-- `operator.truediv`: always float-valued (`10/2 == 5.0`), division by zero
raises `ZeroDivisionError`. -/
def truediv (a b : Value) : Except Err Value :=
  match asNum a, asNum b with
  | some x, some y =>
    if numToQ y = 0 then .error .zeroDivision
    else .ok (.float (numToQ x / numToQ y))
  | _, _ => .error .typeError

/-- Python numeric comparison (ints and floats compare exactly;
anything else raises `TypeError` for an ordering operator). -/
def pyCmp (f : ℚ → ℚ → Bool) (a b : Value) : Except Err Value :=
  match asNum a, asNum b with
  | some x, some y => .ok (.bool (f (numToQ x) (numToQ y)))
  | _, _ => .error .typeError

/-- `operator.eq`: numeric values compare by value (`1 == True`), `None`
equals `None`, primitives compare as the same host function object;
distinct `Procedure` objects compare by identity, which a value-level model
cannot observe, so they compare unequal here (no verified property applies
`=` to procedures). -/
def valueEq (a b : Value) : Bool :=
  match asNum a, asNum b with
  | some x, some y => numToQ x = numToQ y
  | _, _ =>
    match a, b with
    | .none, .none => true
    | .prim p, .prim q => p = q
    | _, _ => false

/-- `operator.and_`, i.e. `a & b`: bitwise on ints (bools count as ints,
and two bools stay a bool); floats raise `TypeError`.  This is Python's
bitwise conjunction, not its short-circuit boolean `and`. -/
def primAnd (a b : Value) : Except Err Value :=
  match a, b with
  | .bool x, .bool y => .ok (.bool (x && y))
  | _, _ =>
    match asNum a, asNum b with
    | some (.inl x), some (.inl y) => .ok (.int (Int.land x y))
    | _, _ => .error .typeError

/-- `operator.or_`, i.e. `a | b`: bitwise disjunction (see `primAnd`). -/
def primOr (a b : Value) : Except Err Value :=
  match a, b with
  | .bool x, .bool y => .ok (.bool (x || y))
  | _, _ =>
    match asNum a, asNum b with
    | some (.inl x), some (.inl y) => .ok (.int (Int.lor x y))
    | _, _ => .error .typeError

/-- Rendering of a value by the builtin `print` (only the fact that a line is
emitted matters to the verified properties, not its exact host spelling). -/
def pyStr : Value → String
  | .int n => toString n
  | .float q => toString q
  | .bool b => if b then "True" else "False"
  | .none => "None"
  | .prim _ => "<built-in function>"
  | .procedure _ _ _ => "<Procedure>"

/-- Invoke a primitive from the `standard_env` table on evaluated arguments.
A wrong argument count raises the host's `TypeError`, as in Python. -/
def applyPrim (p : Prim) (args : List Value) (st : State) :
    Except Err (Value × State) :=
  match p, args with
  | .add, [a, b] => (arith (· + ·) (· + ·) a b).map (·, st)
  | .sub, [a, b] => (arith (· - ·) (· - ·) a b).map (·, st)
  | .mul, [a, b] => (arith (· * ·) (· * ·) a b).map (·, st)
  | .div, [a, b] => (truediv a b).map (·, st)
  | .gt, [a, b] => (pyCmp (· > ·) a b).map (·, st)
  | .lt, [a, b] => (pyCmp (· < ·) a b).map (·, st)
  | .ge, [a, b] => (pyCmp (· ≥ ·) a b).map (·, st)
  | .le, [a, b] => (pyCmp (· ≤ ·) a b).map (·, st)
  | .eq, [a, b] => .ok (.bool (valueEq a b), st)
  | .andP, [a, b] => (primAnd a b).map (·, st)
  | .orP, [a, b] => (primOr a b).map (·, st)
  | .notP, [a] => .ok (.bool (!truthy a), st)
  | .printP, args =>
    .ok (.none, { st with output := st.output ++ [String.intercalate " " (args.map pyStr)] })
  | _, _ => .error .typeError

/-- The fixed primitive table of `Sexp.standard_env`, in source order.  The
preceding `env.update(vars(math))` merge of the host math module (`sin`,
`cos`, `pi`, ... — host floating-point functions) is outside this embedding;
no verified property mentions a math-module binding. -/
def standard_env : List (String × Value) :=
  [("+", .prim .add), ("-", .prim .sub), ("*", .prim .mul), ("/", .prim .div),
   (">", .prim .gt), ("<", .prim .lt), (">=", .prim .ge), ("<=", .prim .le),
   ("=", .prim .eq), ("print", .prim .printP), ("and", .prim .andP),
   ("or", .prim .orP), ("not", .prim .notP)]

/-- The interpreter state right after `Sexp.__init__`: one global frame
(index 0) holding `standard_env`, nothing printed yet. -/
def initState : State :=
  ⟨[⟨standard_env, Option.none⟩], []⟩

/-! ## Evaluator (`Sexp.eval`, with `Procedure.__call__` inlined)

`eval fuel x envI st` evaluates expression `x` in the environment with frame
index `envI`.  The fuel bounds recursion depth (the host call stack) and is
threaded down unchanged in spirit: every recursive entry costs one unit, and
any terminating run succeeds for every sufficiently large fuel
(`eval_mono`). -/

/-- Evaluate the operand list of an application left-to-right (the list
comprehension `[self.eval(exp, env) for exp in x[1:]]`), threading the
mutable state. -/
def threadEval (f : Sexpr → State → Except Err (Value × State)) :
    List Sexpr → State → Except Err (List Value × State)
  | [], st => .ok ([], st)
  | e :: rest, st =>
    match f e st with
    | .error er => .error er
    | .ok (v, st₁) =>
      match threadEval f rest st₁ with
      | .error er => .error er
      | .ok (vs, st₂) => .ok (v :: vs, st₂)

/-- `Sexp.eval`:
* Symbol: `env.find(x)[x]` — resolve through the scope chain;
* non-list (number): constant literal, returned unchanged;
* `(if test conseq alt)`: evaluate `test`, then exactly one branch
  (any other element count fails the tuple unpacking — host `ValueError`);
* list headed by `define` **or** `print` (the source aliases the two):
  evaluate the expression, bind the result in the current frame,
  return `None`;
* `(lambda parms body)`: build a `Procedure` capturing the current frame;
* any other list: evaluate head, evaluate operands left-to-right, invoke —
  a `Procedure` runs its body in a fresh frame whose parent is the captured
  defining frame (`Procedure.__call__`), a primitive runs `applyPrim`,
  anything else is a host `TypeError`;
* the empty list hits `x[0]` — host `IndexError`. -/
def eval : Nat → Sexpr → Nat → State → Except Err (Value × State)
  | 0, _, _, _ => .error .fuel
  | fuel + 1, x, envI, st =>
    match x with
    | .sym s =>
      match find st envI s with
      | .error e => .error e
      | .ok j =>
        match st.frames[j]? with
        | some fr =>
          match lookupB fr.bindings s with
          | some v => .ok (v, st)
          | Option.none => .error .attributeError
        | Option.none => .error .indexError
    | .int n => .ok (.int n, st)
    | .float q => .ok (.float q, st)
    | .list [] => .error .indexError
    | .list (h :: t) =>
      match h with
      | .sym "if" =>
        match t with
        | [test, conseq, alt] =>
          match eval fuel test envI st with
          | .error e => .error e
          | .ok (tv, st₁) => eval fuel (if truthy tv then conseq else alt) envI st₁
        | _ => .error .valueError
      | .sym "define" | .sym "print" =>
        match t with
        | [.sym var, expE] =>
          match eval fuel expE envI st with
          | .error e => .error e
          | .ok (v, st₁) => .ok (.none, setVar st₁ envI var v)
        | [_, _] => .error .typeError
        | _ => .error .valueError
      | .sym "lambda" =>
        match t with
        | [parms, body] => .ok (.procedure parms body envI, st)
        | _ => .error .valueError
      | _ =>
        match eval fuel h envI st with
        | .error e => .error e
        | .ok (pv, st₁) =>
          match threadEval (fun e stc => eval fuel e envI stc) t st₁ with
          | .error e => .error e
          | .ok (argsv, st₂) =>
            match pv with
            | .procedure parms body d =>
              match bindParams parms argsv with
              | .error e => .error e
              | .ok bl => eval fuel body st₂.frames.length (pushFrame st₂ bl d)
            | .prim p => applyPrim p argsv st₂
            | _ => .error .typeError

/-- `Procedure.__call__` together with the host's call dispatch in
`proc(*args)`: a `Procedure` evaluates its body in a fresh
`Env(parms, args, captured)` frame; a primitive runs directly; calling a
non-callable raises the host's `TypeError`.  `eval` performs exactly this
dispatch inline (`eval_cons_app` below). -/
def apply : Nat → Value → List Value → State → Except Err (Value × State)
  | fuel, .procedure parms body d, args, st =>
    match bindParams parms args with
    | .error e => .error e
    | .ok bl => eval fuel body st.frames.length (pushFrame st bl d)
  | _, .prim p, args, st => applyPrim p args st
  | _, _, _, _ => .error .typeError

/-! ## Big-step convenience predicates

`eval` is deterministic; the fuel argument only needs to be large enough.
These predicates existentially quantify the fuel, which lets terminating
evaluations be composed (see `eval_mono` below). -/

/-- Expression `x` evaluates in frame `i` to value `v`, taking state `st` to
`st'`, for some sufficient fuel. -/
def Evals (x : Sexpr) (i : Nat) (st : State) (v : Value) (st' : State) : Prop :=
  ∃ f, eval f x i st = .ok (v, st')

/-- The operand list `l` evaluates left-to-right to the values `vs`. -/
def EvalsArgs (l : List Sexpr) (i : Nat) (st : State) (vs : List Value)
    (st' : State) : Prop :=
  ∃ f, threadEval (fun e stc => eval f e i stc) l st = .ok (vs, st')

/-- Invoking callable value `v` on `args` returns `r`. -/
def Applies (v : Value) (args : List Value) (st : State) (r : Value)
    (st' : State) : Prop :=
  ∃ f, apply f v args st = .ok (r, st')

/-- Heap extension: `t` has all frames of `s`, unchanged, plus newly pushed
ones.  Evaluations that never execute a `define` only push frames, so they
extend the heap in this sense. -/
def HeapExt (s t : State) : Prop :=
  ∃ tail, t.frames = s.frames ++ tail

/-! ## Fixtures for the closure property (C4)

The programs of the closure test:
`(define twice (lambda (x) (* 2 x)))`,
`(define repeat (lambda (f) (lambda (x) (f (f x)))))`, and the nested
application `((repeat (... (repeat twice) ...)) x)`. -/

/-- Parse tree of `(lambda (x) (* 2 x))`. -/
def twiceLambda : Sexpr :=
  .list [.sym "lambda", .list [.sym "x"], .list [.sym "*", .int 2, .sym "x"]]

/-- Parse tree of `(define twice (lambda (x) (* 2 x)))`. -/
def twiceDef : Sexpr := .list [.sym "define", .sym "twice", twiceLambda]

/-- Parse tree of `(lambda (f) (lambda (x) (f (f x))))`. -/
def repeatLambda : Sexpr :=
  .list [.sym "lambda", .list [.sym "f"],
    .list [.sym "lambda", .list [.sym "x"],
      .list [.sym "f", .list [.sym "f", .sym "x"]]]]

/-- Parse tree of `(define repeat (lambda (f) (lambda (x) (f (f x)))))`. -/
def repeatDef : Sexpr := .list [.sym "define", .sym "repeat", repeatLambda]

/-- The expression `repeat` applied `k` times to `twice`:
`repExpr 0 = twice`, `repExpr (k+1) = (repeat (repExpr k))`. -/
def repExpr : Nat → Sexpr
  | 0 => .sym "twice"
  | k + 1 => .list [.sym "repeat", repExpr k]

/-- The closure produced by evaluating `twiceLambda` in the global frame. -/
def twiceClos : Value :=
  .procedure (.list [.sym "x"]) (.list [.sym "*", .int 2, .sym "x"]) 0

/-- The closure produced by evaluating `repeatLambda` in the global frame. -/
def repeatClos : Value :=
  .procedure (.list [.sym "f"])
    (.list [.sym "lambda", .list [.sym "x"],
      .list [.sym "f", .list [.sym "f", .sym "x"]]]) 0

/-- State after `(define twice ...)` in the fresh interpreter state. -/
def stT : State :=
  ⟨[⟨standard_env ++ [("twice", twiceClos)], Option.none⟩], []⟩

/-- State after `(define twice ...)` and then `(define repeat ...)`. -/
def stTR : State :=
  ⟨[⟨standard_env ++ [("twice", twiceClos), ("repeat", repeatClos)],
     Option.none⟩], []⟩

/-- The value of `repExpr k` evaluated from `stTR`: `twice`'s closure for
`k = 0`, and for `k + 1` the inner `(lambda (x) (f (f x)))` closure whose
captured frame (index `k + 1`) binds `f` to the previous stage's value. -/
def gVal : Nat → Value
  | 0 => twiceClos
  | k + 1 =>
    .procedure (.list [.sym "x"]) (.list [.sym "f", .list [.sym "f", .sym "x"]]) (k + 1)

/-- The state after evaluating `repExpr k` from `stTR`: each of the `k`
invocations of `repeat` pushed one frame binding `f` (with the global frame
as parent). -/
def stR : Nat → State
  | 0 => stTR
  | k + 1 => pushFrame (stR k) [("f", gVal k)] 0

/-- Value `v` is an `m`-fold doubler: invoking it on any int `n`, in any
heap extending `base`, returns `2 ^ m * n` and only pushes frames. -/
def Doubles (base : State) (m : Nat) (v : Value) : Prop :=
  ∀ st, HeapExt base st → ∀ n : Int,
    ∃ st', HeapExt st st' ∧ Applies v [.int n] st (.int (2 ^ m * n)) st'

/-! ## Further definitions used by the verified properties -/

/-- Modelled from the spec's words for comparison (not from the source):
Python's short-circuit boolean `a and b`, which returns `a` when falsy and
`b` otherwise.  The source instead installs `operator.and_` (bitwise `&`);
the two disagree, e.g. on `(and 2 1)`. -/
def pyBoolAnd (a b : Value) : Value :=
  if truthy a then b else a

/-- The frame indices `Env.find` walks from frame `i`: the frame itself,
then its parents while the links keep strictly decreasing (they always do
for program-built chains).  `gas` bounds the walk exactly as in `findAux`.

-/
def chainAux (st : State) : Nat → Nat → List Nat
  | _, 0 => []
  | i, gas + 1 =>
    i :: (match st.frames[i]? with
      | Option.none => []
      | some fr =>
        match fr.outer with
        | Option.none => []
        | some j => if j < i then chainAux st j gas else [])

/-- The environment chain seen from frame `i`. -/
def chain (st : State) (i : Nat) : List Nat :=
  chainAux st i (i + 1)

/-- Decidable well-formedness of the chain from `i`: every visited frame
exists and its parent link strictly decreases (true of every chain the
interpreter builds, since `Env(parms, args, outer)` always receives a
pre-existing frame as `outer`). -/
def chainOkB (st : State) (i : Nat) : Bool :=
  (chain st i).all fun j =>
    match st.frames[j]? with
    | some fr =>
      match fr.outer with
      | some k => decide (k < j)
      | Option.none => true
    | Option.none => false

/-- Decidable statement that symbol `s` is bound in none of the frames
listed in `js`. -/
def unboundOnB (st : State) (s : String) (js : List Nat) : Bool :=
  js.all fun j =>
    match st.frames[j]? with
    | some fr => (lookupB fr.bindings s).isNone
    | Option.none => true

/-! ## Reader lemmas -/

/-- A successful pass of the element-reading loop consumes at least the
closing `)`. -/
theorem readListAux_shrinks : ∀ gas ts l rem,
    readListAux gas ts = .ok (l, rem) → rem.length < ts.length := by
  intro gas
  induction gas with
  | zero => intro ts l rem h; simp [readListAux] at h
  | succ gas ih =>
    intro ts l rem h
    rcases ts with _ | ⟨t, rest⟩
    · simp [readListAux] at h
    · by_cases ht : t = ")"
      · subst ht; simp [readListAux] at h
        obtain ⟨rfl, rfl⟩ := h; simp
      · by_cases hp : t = "("
        · subst hp
          simp only [readListAux] at h
          cases h1 : readListAux gas rest with
          | error e => rw [h1] at h; simp at h
          | ok p =>
            obtain ⟨l₁, rem₁⟩ := p
            rw [h1] at h; dsimp only at h
            cases h2 : readListAux gas rem₁ with
            | error e => rw [h2] at h; simp at h
            | ok p₂ =>
              obtain ⟨l₂, rem₂⟩ := p₂
              rw [h2] at h
              simp only [Except.ok.injEq, Prod.mk.injEq] at h
              obtain ⟨rfl, rfl⟩ := h
              have d1 := ih rest l₁ rem₁ h1
              have d2 := ih rem₁ l₂ rem₂ h2
              simp; omega
        · simp only [readListAux, ht, hp] at h
          cases h2 : readListAux gas rest with
          | error e => rw [h2] at h; simp at h
          | ok p₂ =>
            obtain ⟨l₂, rem₂⟩ := p₂
            rw [h2] at h
            simp only [Except.ok.injEq, Prod.mk.injEq] at h
            obtain ⟨rfl, rfl⟩ := h
            have d2 := ih rest l₂ rem₂ h2
            simp; omega

/-- A successful pass of the loop reads a determined prefix: the tokens after
it are returned untouched, and the very same elements are read for any other
continuation of that prefix (and any sufficient gas). -/
theorem readListAux_prefixSplit : ∀ gas ts l rem,
    readListAux gas ts = .ok (l, rem) →
    ∃ c, ts = c ++ rem ∧
      ∀ gas₂ u, c.length < gas₂ → readListAux gas₂ (c ++ u) = .ok (l, u) := by
  intro gas
  induction gas with
  | zero => intro ts l rem h; simp [readListAux] at h
  | succ gas ih =>
    intro ts l rem h
    rcases ts with _ | ⟨t, rest⟩
    · simp [readListAux] at h
    · by_cases ht : t = ")"
      · subst ht
        simp [readListAux] at h
        obtain ⟨rfl, rfl⟩ := h
        refine ⟨[")"], rfl, ?_⟩
        intro gas₂ u hg
        obtain ⟨g, rfl⟩ : ∃ g, gas₂ = g + 1 := ⟨gas₂ - 1, by omega⟩
        simp [readListAux]
      · by_cases hp : t = "("
        · subst hp
          simp only [readListAux] at h
          cases h1 : readListAux gas rest with
          | error e => rw [h1] at h; simp at h
          | ok p =>
            obtain ⟨l₁, rem₁⟩ := p
            rw [h1] at h; dsimp only at h
            cases h2 : readListAux gas rem₁ with
            | error e => rw [h2] at h; simp at h
            | ok p₂ =>
              obtain ⟨l₂, rem₂⟩ := p₂
              rw [h2] at h
              simp only [Except.ok.injEq, Prod.mk.injEq] at h
              obtain ⟨rfl, rfl⟩ := h
              obtain ⟨c₁, rfl, hc₁⟩ := ih rest l₁ rem₁ h1
              obtain ⟨c₂, rfl, hc₂⟩ := ih rem₁ l₂ rem₂ h2
              refine ⟨"(" :: (c₁ ++ c₂), by simp, ?_⟩
              intro gas₂ u hg
              obtain ⟨g, rfl⟩ : ∃ g, gas₂ = g + 1 := ⟨gas₂ - 1, by omega⟩
              simp only [List.cons_append, List.append_assoc] at hg ⊢
              simp only [readListAux]
              rw [hc₁ g (c₂ ++ u) (by simp at hg ⊢; omega)]
              dsimp only
              rw [hc₂ g u (by simp at hg ⊢; omega)]
        · simp only [readListAux, ht, hp] at h
          cases h2 : readListAux gas rest with
          | error e => rw [h2] at h; simp at h
          | ok p₂ =>
            obtain ⟨l₂, rem₂⟩ := p₂
            rw [h2] at h
            simp only [Except.ok.injEq, Prod.mk.injEq] at h
            obtain ⟨rfl, rfl⟩ := h
            obtain ⟨c₂, rfl, hc₂⟩ := ih rest l₂ rem₂ h2
            refine ⟨t :: c₂, by simp, ?_⟩
            intro gas₂ u hg
            obtain ⟨g, rfl⟩ : ∃ g, gas₂ = g + 1 := ⟨gas₂ - 1, by omega⟩
            simp only [List.cons_append] at hg ⊢
            simp only [readListAux, ht, hp]
            rw [hc₂ g u (by simp at hg ⊢; omega)]

/-- The element-reading loop can only fail with the host `IndexError` (from
`tokens[0]` on an exhausted list) or by running out of modelled call-stack
gas; in particular it never raises either reader `SyntaxError` itself. -/
theorem readListAux_error_shape : ∀ gas ts e,
    readListAux gas ts = .error e → e = .indexError ∨ e = .fuel := by
  intro gas
  induction gas with
  | zero => intro ts e h; simp [readListAux] at h; simp [h]
  | succ gas ih =>
    intro ts e h
    rcases ts with _ | ⟨t, rest⟩
    · simp [readListAux] at h; simp [h]
    · by_cases ht : t = ")"
      · subst ht; simp [readListAux] at h
      · by_cases hp : t = "("
        · subst hp
          simp only [readListAux] at h
          cases h1 : readListAux gas rest with
          | error e₁ =>
            rw [h1] at h; dsimp only at h
            simp only [Except.error.injEq] at h
            subst h; exact ih rest e₁ h1
          | ok p =>
            obtain ⟨l₁, rem₁⟩ := p
            rw [h1] at h; dsimp only at h
            cases h2 : readListAux gas rem₁ with
            | error e₂ =>
              rw [h2] at h
              simp only [Except.error.injEq] at h
              subst h; exact ih rem₁ e₂ h2
            | ok p₂ => obtain ⟨l₂, rem₂⟩ := p₂; rw [h2] at h; simp at h
        · simp only [readListAux, ht, hp] at h
          cases h2 : readListAux gas rest with
          | error e₂ =>
            rw [h2] at h
            simp only [Except.error.injEq] at h
            subst h; exact ih rest e₂ h2
          | ok p₂ => obtain ⟨l₂, rem₂⟩ := p₂; rw [h2] at h; simp at h

/-- `read_from_tokens` consumes a determined prefix of the token sequence:
the returned remainder is a suffix of the input, the consumed prefix parses
by itself to the very same expression with nothing left over, and it parses
to that expression whatever tokens follow it. -/
theorem read_from_tokens_prefixSplit : ∀ ts e rem,
    read_from_tokens ts = .ok (e, rem) →
    ∃ c, ts = c ++ rem ∧ read_from_tokens c = .ok (e, []) ∧
      ∀ u, read_from_tokens (c ++ u) = .ok (e, u) := by
  intro ts e rem h
  rcases ts with _ | ⟨t, rest⟩
  · simp [read_from_tokens] at h
  · by_cases ht : t = ")"
    · subst ht; simp [read_from_tokens] at h
    · by_cases hp : t = "("
      · subst hp
        simp only [read_from_tokens] at h
        cases h1 : readListAux (rest.length + 1) rest with
        | error e₁ => rw [h1] at h; simp at h
        | ok p =>
          obtain ⟨l, rem₁⟩ := p
          rw [h1] at h
          simp only [Except.ok.injEq, Prod.mk.injEq] at h
          obtain ⟨rfl, rfl⟩ := h
          obtain ⟨c, rfl, hc⟩ := readListAux_prefixSplit _ _ _ _ h1
          refine ⟨"(" :: c, by simp, ?_, ?_⟩
          · have h₀ := hc (c.length + 1) [] (by omega)
            rw [List.append_nil] at h₀
            simp only [read_from_tokens]
            rw [h₀]
          · intro u
            simp only [List.cons_append, read_from_tokens]
            rw [hc ((c ++ u).length + 1) u (by simp; omega)]
      · simp only [read_from_tokens, ht, hp] at h
        simp only [Except.ok.injEq, Prod.mk.injEq] at h
        obtain ⟨rfl, rfl⟩ := h
        refine ⟨[t], rfl, ?_, ?_⟩
        · simp only [read_from_tokens, ht, hp]
        · intro u
          simp only [List.cons_append, List.nil_append, read_from_tokens, ht, hp]

/-- `read_from_tokens` fails with `SyntaxError 'unexpected )'` exactly when
the token at which the expression read begins is `)`; in every other
position a `)` only terminates a list. -/
theorem read_closeParen_iff : ∀ ts,
    read_from_tokens ts = .error .syntaxCloseParen ↔ ∃ rest, ts = ")" :: rest := by
  intro ts
  constructor
  · intro h
    rcases ts with _ | ⟨t, rest⟩
    · simp [read_from_tokens] at h
    · by_cases ht : t = ")"
      · exact ⟨rest, by rw [ht]⟩
      · by_cases hp : t = "("
        · subst hp
          simp only [read_from_tokens] at h
          cases h1 : readListAux (rest.length + 1) rest with
          | error e₁ =>
            rw [h1] at h
            simp only [Except.error.injEq] at h
            rcases readListAux_error_shape _ _ _ h1 with h₂ | h₂ <;> simp [h₂] at h
          | ok p => obtain ⟨l, rem₁⟩ := p; rw [h1] at h; simp at h
        · simp [read_from_tokens, ht, hp] at h
  · rintro ⟨rest, rfl⟩
    simp [read_from_tokens]

/-- `read_from_tokens` fails with `SyntaxError 'unexpected EOF while
reading'` exactly when it is invoked with no tokens at all; running out of
tokens in the middle of a list instead surfaces as the host `IndexError`
(see `readListAux_error_shape`). -/
theorem read_eof_iff : ∀ ts,
    read_from_tokens ts = .error .syntaxEOF ↔ ts = [] := by
  intro ts
  constructor
  · intro h
    rcases ts with _ | ⟨t, rest⟩
    · rfl
    · by_cases ht : t = ")"
      · subst ht; simp [read_from_tokens] at h
      · by_cases hp : t = "("
        · subst hp
          simp only [read_from_tokens] at h
          cases h1 : readListAux (rest.length + 1) rest with
          | error e₁ =>
            rw [h1] at h
            simp only [Except.error.injEq] at h
            rcases readListAux_error_shape _ _ _ h1 with h₂ | h₂ <;> simp [h₂] at h
          | ok p => obtain ⟨l, rem₁⟩ := p; rw [h1] at h; simp at h
        · simp [read_from_tokens, ht, hp] at h
  · rintro rfl
    simp [read_from_tokens]

/-! ## Evaluator lemmas -/

/-- Heads that trigger a special-form branch of `Sexp.eval` rather than the
generic application branch. -/
def isSpecialHead : Sexpr → Bool
  | .sym "if" | .sym "define" | .sym "print" | .sym "lambda" => true
  | _ => false

/-- The `print` head is aliased to the `define` branch: `Sexp.eval`
dispatches `x[0] == 'define' or x[0] == 'print'` into one arm, so the two
heads evaluate identically, whatever the tail. -/
theorem eval_print_eq_define : ∀ f t i st,
    eval f (.list (.sym "print" :: t)) i st =
      eval f (.list (.sym "define" :: t)) i st := by
  intro f t i st
  cases f with
  | zero => rfl
  | succ f => rfl

/-- Unfolding of the `define` branch on a well-formed tail. -/
theorem eval_define_eq : ∀ f v e i st,
    eval (f + 1) (.list [.sym "define", .sym v, e]) i st =
      match eval f e i st with
      | .error er => .error er
      | .ok (val, st₁) => .ok (.none, setVar st₁ i v val) := by
  intro f v e i st
  rfl

/-- Unfolding of the generic application branch: for a head that is no
special form, `Sexp.eval` evaluates the head, evaluates the operands
left-to-right, and invokes the result (`apply`). -/
theorem eval_cons_app : ∀ f hd t i st, isSpecialHead hd = false →
    eval (f + 1) (.list (hd :: t)) i st =
      match eval f hd i st with
      | Except.error e => Except.error e
      | Except.ok (pv, st₁) =>
        match threadEval (fun e stc => eval f e i stc) t st₁ with
        | Except.error e => Except.error e
        | Except.ok (argsv, st₂) => apply f pv argsv st₂ := by
  intro f hd t i st hh
  have step : ∀ res : Except Err (Value × State),
      (match res with
        | Except.error e => Except.error e
        | Except.ok (pv, st₁) =>
          match threadEval (fun e stc => eval f e i stc) t st₁ with
          | Except.error e => Except.error e
          | Except.ok (argsv, st₂) =>
            match pv with
            | Value.procedure parms body d =>
              match bindParams parms argsv with
              | Except.error e => Except.error e
              | Except.ok bl => eval f body st₂.frames.length (pushFrame st₂ bl d)
            | Value.prim p => applyPrim p argsv st₂
            | _ => Except.error Err.typeError) =
      (match res with
        | Except.error e => Except.error e
        | Except.ok (pv, st₁) =>
          match threadEval (fun e stc => eval f e i stc) t st₁ with
          | Except.error e => Except.error e
          | Except.ok (argsv, st₂) => apply f pv argsv st₂) := by
    intro res
    cases res with
    | error e => rfl
    | ok p =>
      obtain ⟨pv, st₁⟩ := p
      dsimp only
      cases threadEval (fun e stc => eval f e i stc) t st₁ with
      | error e => rfl
      | ok p₂ =>
        obtain ⟨argsv, st₂⟩ := p₂
        dsimp only
        cases pv <;> rfl
  cases hd with
  | int n => exact step _
  | float q => exact step _
  | list l => exact step _
  | sym s =>
    by_cases h1 : s = "if"
    · subst h1; simp [isSpecialHead] at hh
    · by_cases h2 : s = "define"
      · subst h2; simp [isSpecialHead] at hh
      · by_cases h3 : s = "print"
        · subst h3; simp [isSpecialHead] at hh
        · by_cases h4 : s = "lambda"
          · subst h4; simp [isSpecialHead] at hh
          · conv_lhs => rw [eval.eq_def]
            split
            all_goals first
            | exact step _
            | simp_all

/-- Unfolding of the `if` branch. -/
theorem eval_if_eq : ∀ f t i st,
    eval (f + 1) (.list (.sym "if" :: t)) i st =
      match t with
      | [test, conseq, alt] =>
        (match eval f test i st with
          | Except.error e => Except.error e
          | Except.ok (tv, st₁) =>
            eval f (if truthy tv then conseq else alt) i st₁)
      | _ => Except.error Err.valueError := by
  intro f t i st
  rfl

/-- Unfolding of the `define` branch for an arbitrary tail. -/
theorem eval_defineBranch_eq : ∀ f t i st,
    eval (f + 1) (.list (.sym "define" :: t)) i st =
      match t with
      | [Sexpr.sym var, expE] =>
        (match eval f expE i st with
          | Except.error e => Except.error e
          | Except.ok (v, st₁) => Except.ok (Value.none, setVar st₁ i var v))
      | [_, _] => Except.error Err.typeError
      | _ => Except.error Err.valueError := by
  intro f t i st
  rfl

/-- Unfolding of the `lambda` branch. -/
theorem eval_lambda_eq : ∀ f t i st,
    eval (f + 1) (.list (.sym "lambda" :: t)) i st =
      match t with
      | [parms, body] => Except.ok (.procedure parms body i, st)
      | _ => Except.error Err.valueError := by
  intro f t i st
  rfl

/-- Success of the operand loop is preserved by any pointwise-larger
evaluation function. -/
theorem threadEval_mono {F G : Sexpr → State → Except Err (Value × State)}
    (hf : ∀ e stc r, F e stc = .ok r → G e stc = .ok r) :
    ∀ l st r, threadEval F l st = .ok r → threadEval G l st = .ok r := by
  intro l
  induction l with
  | nil => intro st r h; simpa [threadEval] using h
  | cons e rest ih =>
    intro st r h
    simp only [threadEval] at h ⊢
    cases h1 : F e st with
    | error er => rw [h1] at h; simp at h
    | ok p =>
      obtain ⟨v, st₁⟩ := p
      rw [h1] at h; dsimp only at h
      rw [hf e st (v, st₁) h1]
      dsimp only
      cases h2 : threadEval F rest st₁ with
      | error er => rw [h2] at h; simp at h
      | ok p₂ =>
        rw [h2] at h
        rw [ih st₁ p₂ h2]
        exact h

/-- Fuel monotonicity: the fuel only bounds recursion depth — a successful
evaluation stays successful, with the same result, for any larger fuel. -/
theorem eval_mono : ∀ f f' x i st r, f ≤ f' →
    eval f x i st = .ok r → eval f' x i st = .ok r := by
  intro f
  induction f with
  | zero => intro f' x i st r _ h; simp [eval] at h
  | succ f ih =>
    intro f' x i st r hle h
    obtain ⟨f'', rfl⟩ : ∃ g, f' = g + 1 := ⟨f' - 1, by omega⟩
    have hle' : f ≤ f'' := by omega
    cases x with
    | sym s => exact h
    | int n => exact h
    | float q => exact h
    | list l =>
      cases l with
      | nil => exact h
      | cons hd t =>
        by_cases hsp : isSpecialHead hd = false
        · rw [eval_cons_app f hd t i st hsp] at h
          rw [eval_cons_app f'' hd t i st hsp]
          cases h1 : eval f hd i st with
          | error e => rw [h1] at h; simp at h
          | ok p =>
            obtain ⟨pv, st₁⟩ := p
            rw [h1] at h; dsimp only at h
            rw [ih f'' hd i st (pv, st₁) hle' h1]; dsimp only
            cases h2 : threadEval (fun e stc => eval f e i stc) t st₁ with
            | error e => rw [h2] at h; simp at h
            | ok p₂ =>
              obtain ⟨argsv, st₂⟩ := p₂
              rw [h2] at h; dsimp only at h
              have h2' : threadEval (fun e stc => eval f'' e i stc) t st₁ =
                  .ok (argsv, st₂) :=
                threadEval_mono (fun e stc r hr => ih f'' e i stc r hle' hr)
                  t st₁ (argsv, st₂) h2
              rw [h2']; dsimp only
              cases pv with
              | procedure parms body d =>
                simp only [apply] at h ⊢
                cases h3 : bindParams parms argsv with
                | error e => simp only [h3] at h; simp at h
                | ok bl =>
                  simp only [h3] at h ⊢
                  exact ih f'' body st₂.frames.length (pushFrame st₂ bl d) r hle' h
              | prim p => simpa [apply] using h
              | int n => simp [apply] at h
              | float q => simp [apply] at h
              | bool b => simp [apply] at h
              | none => simp [apply] at h
        · rw [Bool.not_eq_false] at hsp
          cases hd with
          | int n => simp [isSpecialHead] at hsp
          | float q => simp [isSpecialHead] at hsp
          | list l₂ => simp [isSpecialHead] at hsp
          | sym s =>
            by_cases h1 : s = "if"
            · subst h1
              rw [eval_if_eq] at h
              rw [eval_if_eq]
              rcases t with _ | ⟨a, _ | ⟨b, _ | ⟨c, _ | ⟨d, r₂⟩⟩⟩⟩
              · simp at h
              · simp at h
              · simp at h
              · dsimp only at h ⊢
                cases hA : eval f a i st with
                | error e => rw [hA] at h; simp at h
                | ok p =>
                  obtain ⟨tv, st₁⟩ := p
                  rw [hA] at h; dsimp only at h
                  rw [ih f'' a i st (tv, st₁) hle' hA]; dsimp only
                  exact ih f'' _ i st₁ r hle' h
              · simp at h
            · by_cases h2 : s = "define"
              · subst h2
                rw [eval_defineBranch_eq] at h
                rw [eval_defineBranch_eq]
                rcases t with _ | ⟨v1, _ | ⟨e1, _ | ⟨x1, r₂⟩⟩⟩
                · simp at h
                · simp at h
                · cases v1 with
                  | sym var =>
                    dsimp only at h ⊢
                    cases hE : eval f e1 i st with
                    | error e => rw [hE] at h; simp at h
                    | ok p =>
                      obtain ⟨v, st₁⟩ := p
                      rw [hE] at h
                      rw [ih f'' e1 i st (v, st₁) hle' hE]
                      exact h
                  | int n => simp at h
                  | float q => simp at h
                  | list l₂ => simp at h
                · simp at h
              · by_cases h3 : s = "print"
                · subst h3
                  rw [eval_print_eq_define] at h
                  rw [eval_print_eq_define]
                  rw [eval_defineBranch_eq] at h
                  rw [eval_defineBranch_eq]
                  rcases t with _ | ⟨v1, _ | ⟨e1, _ | ⟨x1, r₂⟩⟩⟩
                  · simp at h
                  · simp at h
                  · cases v1 with
                    | sym var =>
                      dsimp only at h ⊢
                      cases hE : eval f e1 i st with
                      | error e => rw [hE] at h; simp at h
                      | ok p =>
                        obtain ⟨v, st₁⟩ := p
                        rw [hE] at h
                        rw [ih f'' e1 i st (v, st₁) hle' hE]
                        exact h
                    | int n => simp at h
                    | float q => simp at h
                    | list l₂ => simp at h
                  · simp at h
                · by_cases h4 : s = "lambda"
                  · subst h4; exact h
                  · have : isSpecialHead (.sym s) = false := by
                      rw [isSpecialHead.eq_def]
                      split <;> simp_all
                    rw [this] at hsp
                    exact absurd hsp (by simp)

/-- Fuel monotonicity for procedure/primitive invocation. -/
theorem apply_mono : ∀ f f' v args st r, f ≤ f' →
    apply f v args st = .ok r → apply f' v args st = .ok r := by
  intro f f' v args st r hle h
  cases v with
  | procedure parms body d =>
    simp only [apply] at h ⊢
    cases h3 : bindParams parms args with
    | error e => simp only [h3] at h; simp at h
    | ok bl =>
      simp only [h3] at h ⊢
      exact eval_mono f f' body st.frames.length (pushFrame st bl d) r hle h
  | prim p => exact h
  | int n => simp [apply] at h
  | float q => simp [apply] at h
  | bool b => simp [apply] at h
  | none => simp [apply] at h

/-- Big-step introduction: variable reference. -/
theorem evals_sym {st : State} {i : Nat} {s : String} {j : Nat} {fr : FrameData}
    {v : Value} (hf : find st i s = .ok j) (hj : st.frames[j]? = some fr)
    (hv : lookupB fr.bindings s = some v) : Evals (.sym s) i st v st := by
  refine ⟨1, ?_⟩
  simp only [eval, hf, hj, hv]

/-- Big-step introduction: integer literal. -/
theorem evals_int (i : Nat) (st : State) (n : Int) :
    Evals (.int n) i st (.int n) st := ⟨1, rfl⟩

/-- Big-step introduction: `lambda` closure construction. -/
theorem evals_lambda (i : Nat) (st : State) (parms body : Sexpr) :
    Evals (.list [.sym "lambda", parms, body]) i st (.procedure parms body i) st :=
  ⟨1, rfl⟩

/-- Big-step introduction: empty operand list. -/
theorem evalsArgs_nil (i : Nat) (st : State) : EvalsArgs [] i st [] st := ⟨0, rfl⟩

/-- Big-step introduction: operand lists evaluate left-to-right. -/
theorem evalsArgs_cons {e : Sexpr} {l : List Sexpr} {i : Nat} {st st₁ st₂ : State}
    {v : Value} {vs : List Value} (h1 : Evals e i st v st₁)
    (h2 : EvalsArgs l i st₁ vs st₂) : EvalsArgs (e :: l) i st (v :: vs) st₂ := by
  obtain ⟨f₁, h1⟩ := h1
  obtain ⟨f₂, h2⟩ := h2
  refine ⟨f₁ + f₂, ?_⟩
  simp only [threadEval]
  rw [eval_mono f₁ (f₁ + f₂) e i st (v, st₁) (by omega) h1]
  dsimp only
  have h2' : threadEval (fun e stc => eval (f₁ + f₂) e i stc) l st₁ = .ok (vs, st₂) :=
    threadEval_mono (fun e stc r hr => eval_mono f₂ (f₁ + f₂) e i stc r (by omega) hr)
      l st₁ (vs, st₂) h2
  rw [h2']

/-- Big-step introduction: generic application (evaluate head, evaluate
operands, invoke). -/
theorem evals_app {hd : Sexpr} {t : List Sexpr} {i : Nat} {st st₁ st₂ st₃ : State}
    {pv r : Value} {vs : List Value} (hh : isSpecialHead hd = false)
    (h1 : Evals hd i st pv st₁) (h2 : EvalsArgs t i st₁ vs st₂)
    (h3 : Applies pv vs st₂ r st₃) : Evals (.list (hd :: t)) i st r st₃ := by
  obtain ⟨f₁, h1⟩ := h1
  obtain ⟨f₂, h2⟩ := h2
  obtain ⟨f₃, h3⟩ := h3
  refine ⟨f₁ + f₂ + f₃ + 1, ?_⟩
  rw [eval_cons_app (f₁ + f₂ + f₃) hd t i st hh]
  rw [eval_mono f₁ (f₁ + f₂ + f₃) hd i st (pv, st₁) (by omega) h1]
  dsimp only
  have h2' : threadEval (fun e stc => eval (f₁ + f₂ + f₃) e i stc) t st₁ =
      .ok (vs, st₂) :=
    threadEval_mono
      (fun e stc r hr => eval_mono f₂ (f₁ + f₂ + f₃) e i stc r (by omega) hr)
      t st₁ (vs, st₂) h2
  rw [h2']
  dsimp only
  exact apply_mono f₃ (f₁ + f₂ + f₃) pv vs st₂ (r, st₃) (by omega) h3

/-- Big-step introduction: `Procedure.__call__` — run the body in a fresh
frame pairing the parameters with the arguments, parented at the captured
defining environment. -/
theorem applies_proc {parms body : Sexpr} {d : Nat} {args : List Value}
    {bl : List (String × Value)} {st st' : State} {r : Value}
    (hb : bindParams parms args = .ok bl)
    (h : Evals body st.frames.length (pushFrame st bl d) r st') :
    Applies (.procedure parms body d) args st r st' := by
  obtain ⟨f, h⟩ := h
  exact ⟨f, by simp only [apply, hb]; exact h⟩

/-- Big-step introduction: primitive invocation. -/
theorem applies_prim {p : Prim} {args : List Value} {st st' : State} {r : Value}
    (h : applyPrim p args st = .ok (r, st')) : Applies (.prim p) args st r st' :=
  ⟨0, h⟩

/-- Heap extension is reflexive. -/
theorem heapExt_refl (s : State) : HeapExt s s := ⟨[], by simp⟩

/-- Heap extension is transitive. -/
theorem heapExt_trans {a b c : State} (h1 : HeapExt a b) (h2 : HeapExt b c) :
    HeapExt a c := by
  obtain ⟨t1, h1⟩ := h1
  obtain ⟨t2, h2⟩ := h2
  exact ⟨t1 ++ t2, by rw [h2, h1, List.append_assoc]⟩

/-- Pushing a frame extends the heap. -/
theorem heapExt_push (st : State) (b : List (String × Value)) (o : Nat) :
    HeapExt st (pushFrame st b o) := ⟨[⟨b, some o⟩], rfl⟩

/-- Frames present in a heap survive unchanged in any extension. -/
theorem heapExt_get {a b : State} (h : HeapExt a b) {i : Nat} {fr : FrameData}
    (hi : a.frames[i]? = some fr) : b.frames[i]? = some fr := by
  obtain ⟨t, ht⟩ := h
  have hlt : i < a.frames.length := by
    by_contra hge
    rw [List.getElem?_eq_none (by omega)] at hi
    exact Option.noConfusion hi
  rw [ht, List.getElem?_append, if_pos hlt]
  exact hi

/-- Heap extension only adds frames. -/
theorem heapExt_length {a b : State} (h : HeapExt a b) :
    a.frames.length ≤ b.frames.length := by
  obtain ⟨t, ht⟩ := h
  rw [ht]
  simp

/-- `findAux` does not depend on the gas bound, as long as it exceeds the
current frame index (parent links strictly decrease). -/
theorem findAux_gas (st : State) (var : String) : ∀ i g, i < g →
    findAux st var i g = find st i var := by
  intro i
  induction i using Nat.strong_induction_on with
  | _ i ih =>
    intro g hg
    obtain ⟨g', rfl⟩ : ∃ g', g = g' + 1 := ⟨g - 1, by omega⟩
    show findAux st var i (g' + 1) = findAux st var i (i + 1)
    simp only [findAux]
    cases hf : st.frames[i]? with
    | none => rfl
    | some fr =>
      dsimp only
      by_cases hm : (lookupB fr.bindings var).isSome
      · simp [hm]
      · simp only [Bool.not_eq_true] at hm
        simp only [hm, Bool.false_eq_true, if_false]
        cases ho : fr.outer with
        | none => rfl
        | some j =>
          dsimp only
          by_cases hj : j < i
          · simp only [if_pos hj]
            rw [ih j hj g' (by omega), ih j hj i (by omega)]
          · simp [hj]

/-- One resolution step of `Env.find`: the current frame misses, so the walk
moves to the parent frame. -/
theorem find_miss {st : State} {i j : Nat} {fr : FrameData} {var : String}
    (hf : st.frames[i]? = some fr) (hm : lookupB fr.bindings var = Option.none)
    (ho : fr.outer = some j) (hj : j < i) : find st i var = find st j var := by
  show findAux st var i (i + 1) = _
  simp only [findAux, hf, hm, ho, Option.isSome_none, Bool.false_eq_true, if_false,
    if_pos hj]
  exact findAux_gas st var j i (by omega)

/-- `Env.find` stops at the innermost frame whose dict holds the symbol. -/
theorem find_hit {st : State} {i : Nat} {fr : FrameData} {var : String} {v : Value}
    (hf : st.frames[i]? = some fr) (hm : lookupB fr.bindings var = some v) :
    find st i var = .ok i := by
  show findAux st var i (i + 1) = _
  simp [findAux, hf, hm]

/-- The frame just pushed sits at the old heap size. -/
theorem pushFrame_get_last (st : State) (b : List (String × Value)) (o : Nat) :
    (pushFrame st b o).frames[st.frames.length]? = some ⟨b, some o⟩ := by
  simp [pushFrame]

/-- Length of the heap after `stR k`: the global frame plus the `k` frames
pushed by the `k` invocations of `repeat`. -/
theorem stR_length : ∀ k, (stR k).frames.length = k + 1 := by
  intro k
  induction k with
  | zero => rfl
  | succ k ih => simp [stR, pushFrame]; omega

/-- `stR` extends `stTR`. -/
theorem stR_ext : ∀ k, HeapExt stTR (stR k) := by
  intro k
  induction k with
  | zero => exact heapExt_refl _
  | succ k ih => exact heapExt_trans ih (heapExt_push _ _ _)

/-- The frame pushed at stage `k + 1` binds `f` to the previous stage's
value, with the global frame as parent. -/
theorem stR_get_last (k : Nat) :
    (stR (k + 1)).frames[(k + 1 : Nat)]? = some ⟨[("f", gVal k)], some 0⟩ := by
  show (pushFrame (stR k) [("f", gVal k)] 0).frames[(k + 1 : Nat)]? = _
  have h := pushFrame_get_last (stR k) [("f", gVal k)] 0
  rwa [stR_length k] at h

/-- Evaluating `repExpr k` from `stTR` yields the stage-`k` closure and
pushes exactly the `k` `repeat`-frames. -/
theorem stTR_frame0 :
    stTR.frames[(0 : Nat)]? = some ⟨standard_env ++
      [("twice", twiceClos), ("repeat", repeatClos)], Option.none⟩ := rfl

theorem repExpr_evals : ∀ k, Evals (repExpr k) 0 stTR (gVal k) (stR k) := by
  intro k
  induction k with
  | zero =>
    exact evals_sym (find_hit stTR_frame0 rfl) stTR_frame0 rfl
  | succ k ih =>
    show Evals (.list [.sym "repeat", repExpr k]) 0 stTR (gVal (k + 1)) (stR (k + 1))
    have h1 : Evals (.sym "repeat") 0 stTR repeatClos stTR :=
      evals_sym (find_hit stTR_frame0 rfl) stTR_frame0 rfl
    have h2 : EvalsArgs [repExpr k] 0 stTR [gVal k] (stR k) :=
      evalsArgs_cons ih (evalsArgs_nil 0 (stR k))
    have h3 : Applies repeatClos [gVal k] (stR k) (gVal (k + 1)) (stR (k + 1)) := by
      refine applies_proc rfl ?_
      rw [stR_length k]
      exact evals_lambda (k + 1) (pushFrame (stR k) [("f", gVal k)] 0)
        (.list [.sym "x"]) (.list [.sym "f", .list [.sym "f", .sym "x"]])
    exact evals_app rfl h1 h2 h3

/-- The stage-`k` closure multiplies its integer argument by `2 ^ 2 ^ k`, in
any heap extending its creation heap, only pushing frames.  This is the
lexical-scoping induction: stage `k + 1` resolves `f` through its captured
frame (never the call site) and applies stage `k` twice. -/
theorem gVal_doubles : ∀ k, Doubles (stR k) (2 ^ k) (gVal k) := by
  intro k
  induction k with
  | zero =>
    intro st hext n
    refine ⟨pushFrame st [("x", .int n)] 0, heapExt_push st _ 0, ?_⟩
    have hg0 : st.frames[(0 : Nat)]? = some ⟨standard_env ++
        [("twice", twiceClos), ("repeat", repeatClos)], Option.none⟩ :=
      heapExt_get hext stTR_frame0
    have hfx : (pushFrame st [("x", .int n)] 0).frames[st.frames.length]? =
        some ⟨[("x", .int n)], some 0⟩ := pushFrame_get_last st _ 0
    have hg0' : (pushFrame st [("x", .int n)] 0).frames[(0 : Nat)]? =
        some ⟨standard_env ++ [("twice", twiceClos), ("repeat", repeatClos)],
          Option.none⟩ :=
      heapExt_get (heapExt_push st _ 0) hg0
    have hlen : 1 ≤ st.frames.length := heapExt_length hext
    have hfind : find (pushFrame st [("x", .int n)] 0) st.frames.length "*" = .ok 0 := by
      rw [find_miss hfx
        (show lookupB [("x", Value.int n)] "*" = Option.none from rfl) rfl (by omega)]
      exact find_hit hg0' rfl
    have hstar : Evals (.sym "*") st.frames.length (pushFrame st [("x", .int n)] 0)
        (.prim .mul) (pushFrame st [("x", .int n)] 0) :=
      evals_sym hfind hg0' rfl
    have hx : Evals (.sym "x") st.frames.length (pushFrame st [("x", .int n)] 0)
        (.int n) (pushFrame st [("x", .int n)] 0) :=
      evals_sym (find_hit hfx rfl) hfx rfl
    have hargs : EvalsArgs [.int 2, .sym "x"] st.frames.length
        (pushFrame st [("x", .int n)] 0) [.int 2, .int n]
        (pushFrame st [("x", .int n)] 0) :=
      evalsArgs_cons (evals_int _ _ 2) (evalsArgs_cons hx (evalsArgs_nil _ _))
    have harith : (2 : ℤ) ^ (2 : ℕ) ^ (0 : ℕ) * n = 2 * n := by norm_num
    have happ : Applies (.prim .mul) [.int 2, .int n]
        (pushFrame st [("x", .int n)] 0) (.int (2 ^ 2 ^ 0 * n))
        (pushFrame st [("x", .int n)] 0) := by
      refine applies_prim ?_
      rw [harith]
      rfl
    refine applies_proc rfl ?_
    exact evals_app rfl hstar hargs happ
  | succ k ih =>
    intro st hext n
    have hF : st.frames[(k + 1 : Nat)]? = some ⟨[("f", gVal k)], some 0⟩ :=
      heapExt_get hext (stR_get_last k)
    have hfx : (pushFrame st [("x", .int n)] (k + 1)).frames[st.frames.length]? =
        some ⟨[("x", .int n)], some (k + 1)⟩ := pushFrame_get_last st _ (k + 1)
    have hFs : (pushFrame st [("x", .int n)] (k + 1)).frames[(k + 1 : Nat)]? =
        some ⟨[("f", gVal k)], some 0⟩ :=
      heapExt_get (heapExt_push st _ (k + 1)) hF
    have hlen : k + 2 ≤ st.frames.length := by
      have h := heapExt_length hext
      rw [stR_length (k + 1)] at h
      omega
    have hfindf : find (pushFrame st [("x", .int n)] (k + 1))
        st.frames.length "f" = .ok (k + 1) := by
      rw [find_miss hfx
        (show lookupB [("x", Value.int n)] "f" = Option.none from rfl) rfl (by omega)]
      exact find_hit hFs rfl
    have hf_evals : Evals (.sym "f") st.frames.length
        (pushFrame st [("x", .int n)] (k + 1)) (gVal k)
        (pushFrame st [("x", .int n)] (k + 1)) :=
      evals_sym hfindf hFs rfl
    have hx_evals : Evals (.sym "x") st.frames.length
        (pushFrame st [("x", .int n)] (k + 1)) (.int n)
        (pushFrame st [("x", .int n)] (k + 1)) :=
      evals_sym (find_hit hfx rfl) hfx rfl
    have hext_inner : HeapExt (stR k) (pushFrame st [("x", .int n)] (k + 1)) :=
      heapExt_trans (heapExt_push (stR k) [("f", gVal k)] 0)
        (heapExt_trans hext (heapExt_push st _ (k + 1)))
    obtain ⟨st₁, hext₁, happly₁⟩ := ih (pushFrame st [("x", .int n)] (k + 1)) hext_inner n
    have hinner : Evals (.list [.sym "f", .sym "x"]) st.frames.length
        (pushFrame st [("x", .int n)] (k + 1)) (.int (2 ^ 2 ^ k * n)) st₁ :=
      evals_app rfl hf_evals (evalsArgs_cons hx_evals (evalsArgs_nil _ _)) happly₁
    have hext₂ : HeapExt (stR k) st₁ := heapExt_trans hext_inner hext₁
    obtain ⟨st₂, hext₂', happly₂⟩ := ih st₁ hext₂ (2 ^ 2 ^ k * n)
    have houter : Evals (.list [.sym "f", .list [.sym "f", .sym "x"]])
        st.frames.length (pushFrame st [("x", .int n)] (k + 1))
        (.int (2 ^ 2 ^ k * (2 ^ 2 ^ k * n))) st₂ :=
      evals_app rfl hf_evals (evalsArgs_cons hinner (evalsArgs_nil _ _)) happly₂
    refine ⟨st₂, ?_, ?_⟩
    · exact heapExt_trans (heapExt_push st _ (k + 1)) (heapExt_trans hext₁ hext₂')
    · refine applies_proc rfl ?_
      have harith : (2 : ℤ) ^ (2 : ℕ) ^ (k + 1) * n =
          2 ^ 2 ^ k * (2 ^ 2 ^ k * n) := by
        rw [pow_succ, pow_mul]
        ring
      rw [harith]
      exact houter

/-! ## Scope-chain lemmas (C5) -/

/-- `chainAux` does not depend on the gas bound once it exceeds the frame
index. -/
theorem chainAux_gas (st : State) : ∀ i g, i < g →
    chainAux st i g = chain st i := by
  intro i
  induction i using Nat.strong_induction_on with
  | _ i ih =>
    intro g hg
    obtain ⟨g', rfl⟩ : ∃ g', g = g' + 1 := ⟨g - 1, by omega⟩
    show chainAux st i (g' + 1) = chainAux st i (i + 1)
    simp only [chainAux]
    cases hf : st.frames[i]? with
    | none => rfl
    | some fr =>
      dsimp only
      cases ho : fr.outer with
      | none => rfl
      | some j =>
        dsimp only
        by_cases hj : j < i
        · simp only [if_pos hj]
          rw [ih j hj g' (by omega), ih j hj i (by omega)]
        · simp [hj]

/-- The chain starts at the frame itself. -/
theorem chain_head (st : State) (i : Nat) : ∃ rest, chain st i = i :: rest := by
  show ∃ rest, chainAux st i (i + 1) = i :: rest
  simp only [chainAux]
  exact ⟨_, rfl⟩

/-- Walking step: with a decreasing parent link the chain continues at the
parent. -/
theorem chain_cons_step {st : State} {i j : Nat} {fr : FrameData}
    (hf : st.frames[i]? = some fr) (ho : fr.outer = some j) (hj : j < i) :
    chain st i = i :: chain st j := by
  show chainAux st i (i + 1) = _
  simp only [chainAux, hf, ho, if_pos hj]
  rw [chainAux_gas st j i (by omega)]

/-- The chain stops at a frame with no parent. -/
theorem chain_stop_outerNone {st : State} {i : Nat} {fr : FrameData}
    (hf : st.frames[i]? = some fr) (ho : fr.outer = Option.none) :
    chain st i = [i] := by
  show chainAux st i (i + 1) = _
  simp [chainAux, hf, ho]

/-- The chain stops at a missing frame. -/
theorem chain_stop_missing {st : State} {i : Nat}
    (hf : st.frames[i]? = Option.none) : chain st i = [i] := by
  show chainAux st i (i + 1) = _
  simp [chainAux, hf]

/-- The chain stops at a non-decreasing parent link. -/
theorem chain_stop_bad {st : State} {i j : Nat} {fr : FrameData}
    (hf : st.frames[i]? = some fr) (ho : fr.outer = some j) (hj : ¬ j < i) :
    chain st i = [i] := by
  show chainAux st i (i + 1) = _
  simp [chainAux, hf, ho, hj]

/-- `Env.find` at a parentless frame that misses the symbol raises
`AttributeError`. -/
theorem find_stop_top {st : State} {i : Nat} {fr : FrameData} {var : String}
    (hf : st.frames[i]? = some fr) (hm : lookupB fr.bindings var = Option.none)
    (ho : fr.outer = Option.none) : find st i var = .error .attributeError := by
  show findAux st var i (i + 1) = _
  simp [findAux, hf, hm, ho]

/-- A symbol bound in no frame of a well-formed chain makes `Env.find` fail
with `AttributeError` — the walk never invents a default. -/
theorem find_unbound {s : String} {st : State} : ∀ i, chainOkB st i = true →
    unboundOnB st s (chain st i) = true → find st i s = .error .attributeError := by
  intro i
  induction i using Nat.strong_induction_on with
  | _ i ih =>
    intro hOk hUb
    have hiMem : i ∈ chain st i := by
      obtain ⟨rest, hch⟩ := chain_head st i
      rw [hch]; exact List.mem_cons_self i rest
    have hOki := List.all_eq_true.mp hOk i hiMem
    have hUbi := List.all_eq_true.mp hUb i hiMem
    cases hfi : st.frames[i]? with
    | none => rw [hfi] at hOki; simp at hOki
    | some fr =>
      rw [hfi] at hOki hUbi
      dsimp only at hOki hUbi
      have hm : lookupB fr.bindings s = Option.none := by
        simpa [Option.isNone_iff_eq_none] using hUbi
      cases ho : fr.outer with
      | none => exact find_stop_top hfi hm ho
      | some j =>
        rw [ho] at hOki
        have hj : j < i := by simpa using hOki
        rw [find_miss hfi hm ho hj]
        have hchain := chain_cons_step hfi ho hj
        refine ih j hj ?_ ?_
        · unfold chainOkB at hOk ⊢
          rw [hchain, List.all_cons, Bool.and_eq_true] at hOk
          exact hOk.2
        · unfold unboundOnB at hUb ⊢
          rw [hchain, List.all_cons, Bool.and_eq_true] at hUb
          exact hUb.2

/-- `Env.find` returns the innermost frame of the chain whose dict holds the
symbol: if every frame strictly before `j` on the chain misses `s` and `j`
holds it, the walk stops at `j`. -/
theorem find_bound {s : String} {st : State} {j : Nat} {c₂ : List Nat}
    {fr : FrameData} {v : Value} :
    ∀ c₁ i, chainOkB st i = true → chain st i = c₁ ++ j :: c₂ →
    unboundOnB st s c₁ = true → st.frames[j]? = some fr →
    lookupB fr.bindings s = some v → find st i s = .ok j := by
  intro c₁
  induction c₁ with
  | nil =>
    intro i hOk hch hUb hf hv
    obtain ⟨rest, hch'⟩ := chain_head st i
    rw [hch'] at hch
    simp only [List.nil_append] at hch
    obtain ⟨rfl, -⟩ : i = j ∧ rest = c₂ := by
      constructor
      · exact (List.cons.injEq _ _ _ _ ▸ hch).1
      · exact (List.cons.injEq _ _ _ _ ▸ hch).2
    exact find_hit hf hv
  | cons a c₁ ih =>
    intro i hOk hch hUb hf hv
    obtain ⟨rest, hch'⟩ := chain_head st i
    rw [hch'] at hch
    simp only [List.cons_append, List.cons.injEq] at hch
    obtain ⟨rfl, hrest⟩ := hch
    have hiMem : i ∈ chain st i := by rw [hch']; exact List.mem_cons_self _ _
    have hOki := List.all_eq_true.mp hOk i hiMem
    have hUbi : (match st.frames[i]? with
        | some fr => (lookupB fr.bindings s).isNone
        | Option.none => true) = true := by
      have := List.all_eq_true.mp hUb i (List.mem_cons_self _ _)
      exact this
    cases hfi : st.frames[i]? with
    | none => rw [hfi] at hOki; simp at hOki
    | some fri =>
      rw [hfi] at hOki hUbi
      dsimp only at hOki hUbi
      have hm : lookupB fri.bindings s = Option.none := by
        simpa [Option.isNone_iff_eq_none] using hUbi
      cases ho : fri.outer with
      | none =>
        have hstop := chain_stop_outerNone hfi ho
        rw [hch'] at hstop
        have hnil : rest = [] := (List.cons.injEq _ _ _ _ ▸ hstop).2
        rw [hrest] at hnil
        simp at hnil
      | some k =>
        rw [ho] at hOki
        have hk : k < i := by simpa using hOki
        have hchain := chain_cons_step hfi ho hk
        rw [hch'] at hchain
        simp only [List.cons.injEq, true_and] at hchain
        rw [find_miss hfi hm ho hk]
        refine ih k ?_ ?_ ?_ hf hv
        · unfold chainOkB at hOk ⊢
          rw [hch', hchain, List.all_cons, Bool.and_eq_true] at hOk
          exact hOk.2
        · rw [← hchain]
          exact hrest
        · unfold unboundOnB at hUb ⊢
          rw [List.all_cons, Bool.and_eq_true] at hUb
          exact hUb.2

/-- Unfolding of the symbol branch of `Sexp.eval`: `env.find(x)[x]`. -/
theorem eval_sym_eq : ∀ f s i st,
    eval (f + 1) (.sym s) i st =
      match find st i s with
      | Except.error e => Except.error e
      | Except.ok j =>
        match st.frames[j]? with
        | some fr =>
          (match lookupB fr.bindings s with
            | some v => Except.ok (v, st)
            | Option.none => Except.error Err.attributeError)
        | Option.none => Except.error Err.indexError := by
  intro f s i st
  rfl

/-! ## Frame-update lemmas (C7) -/

/-- Dict assignment makes the key resolve to the new value. -/
theorem lookupB_updateB_self : ∀ (l : List (String × Value)) k v,
    lookupB (updateB l k v) k = some v := by
  intro l k v
  induction l with
  | nil => simp [updateB, lookupB]
  | cons p rest ih =>
    obtain ⟨k', v'⟩ := p
    by_cases hk : k' = k
    · subst hk; simp [updateB, lookupB]
    · simp [updateB, lookupB, hk, ih]

/-- Dict assignment leaves every other key untouched. -/
theorem lookupB_updateB_ne : ∀ (l : List (String × Value)) k v k', k' ≠ k →
    lookupB (updateB l k v) k' = lookupB l k' := by
  intro l k v k' hne
  have hne' : ¬ k = k' := fun h => hne h.symm
  induction l with
  | nil => simp [updateB, lookupB, hne']
  | cons p rest ih =>
    obtain ⟨k₀, v₀⟩ := p
    simp only [updateB]
    by_cases hk : k₀ = k
    · rw [if_pos hk]
      simp only [lookupB]
      rw [if_neg hne', if_neg (show ¬ k₀ = k' from by rw [hk]; exact hne')]
    · rw [if_neg hk]
      simp only [lookupB]
      by_cases hk' : k₀ = k'
      · rw [if_pos hk', if_pos hk']
      · rw [if_neg hk', if_neg hk']
        exact ih

/-- `env[var] = v` on frame `i` leaves every other frame of the heap
untouched. -/
theorem setVar_get_ne : ∀ (st : State) i s v j, j ≠ i →
    (setVar st i s v).frames[j]? = st.frames[j]? := by
  intro st i s v j hne
  simp [setVar, List.getElem?_set_ne (fun h => hne h.symm)]

/-- `env[var] = v` on an existing frame `i` replaces exactly that frame with
the dict-updated frame (same parent link). -/
theorem setVar_get_self : ∀ (st : State) i s v fr, st.frames[i]? = some fr →
    (setVar st i s v).frames[i]? = some ⟨updateB fr.bindings s v, fr.outer⟩ := by
  intro st i s v fr hf
  have hlt : i < st.frames.length := by
    by_contra hge
    rw [List.getElem?_eq_none (by omega)] at hf
    exact Option.noConfusion hf
  simp [setVar, List.getElem?_set_self, hf, hlt]

/-! ## Positional-binding lemmas (C9) -/

/-- Assignment of a fresh key appends it. -/
theorem updateB_notMem : ∀ (l : List (String × Value)) k v,
    k ∉ l.map Prod.fst → updateB l k v = l ++ [(k, v)] := by
  intro l k v h
  induction l with
  | nil => rfl
  | cons p rest ih =>
    obtain ⟨k₀, v₀⟩ := p
    simp only [List.map_cons, List.mem_cons] at h
    push_neg at h
    simp only [updateB, if_neg (Ne.symm h.1), List.cons_append,
      List.cons.injEq, true_and]
    exact ih h.2

/-- `zip(parms, args)` over a Symbol parameter list never fails and folds the
pairs into the dict. -/
theorem zipBind_map_sym : ∀ (ps : List String) (args : List Value) acc,
    zipBind (ps.map Sexpr.sym) args acc =
      .ok ((ps.zip args).foldl (fun a p => updateB a p.1 p.2) acc) := by
  intro ps
  induction ps with
  | nil => intro args acc; cases args <;> rfl
  | cons p ps ih =>
    intro args acc
    cases args with
    | nil => rfl
    | cons a args => simp only [List.map_cons, zipBind, List.zip_cons_cons,
        List.foldl_cons]; exact ih args (updateB acc p a)

/-- With distinct parameter names (the only case the test programs use), the
fold of dict assignments is just the positional pairing itself. -/
theorem zipFold_nodup : ∀ (ps : List String) (args : List Value)
    (acc : List (String × Value)), ps.Nodup →
    (∀ k ∈ ps, k ∉ acc.map Prod.fst) →
    (ps.zip args).foldl (fun a p => updateB a p.1 p.2) acc = acc ++ ps.zip args := by
  intro ps
  induction ps with
  | nil => intro args acc _ _; simp
  | cons p ps ih =>
    intro args acc hnd hdisj
    cases args with
    | nil => simp
    | cons a args =>
      simp only [List.zip_cons_cons, List.foldl_cons]
      rw [updateB_notMem acc p a (hdisj p (List.mem_cons_self _ _))]
      rw [List.nodup_cons] at hnd
      rw [ih args (acc ++ [(p, a)]) hnd.2 ?_]
      · simp
      · intro k hk
        simp only [List.map_append, List.mem_append]
        push_neg
        refine ⟨hdisj k (List.mem_cons_of_mem _ hk), ?_⟩
        simp only [List.map_cons, List.map_nil, List.mem_singleton]
        intro hkp
        exact absurd (hkp ▸ hk) hnd.1

/-- `Env.__init__` on a duplicate-free Symbol parameter list builds exactly
the positional dict `zip(parms, args)`. -/
theorem bindParams_nodup : ∀ (ps : List String) (args : List Value), ps.Nodup →
    bindParams (.list (ps.map Sexpr.sym)) args = .ok (ps.zip args) := by
  intro ps args hnd
  show zipBind (ps.map Sexpr.sym) args [] = _
  rw [zipBind_map_sym ps args []]
  rw [zipFold_nodup ps args [] hnd (by simp)]
  simp

/-! ## Claim theorems -/

/-- C1 counterexample: the claim says reading
`["(", "print", "a", "10", ")", ")"]` fails with SyntaxError "unexpected
closing parenthesis"; in fact `Sexp.read_from_tokens` succeeds — it consumes
the one complete expression `(print a 10)` and simply leaves the stray `)`
unconsumed in the token list, raising nothing. -/
theorem C1_counterexample :
    read_from_tokens ["(", "print", "a", "10", ")", ")"] =
      .ok (.list [.sym "print", .sym "a", .int 10], [")"]) ∧
    read_from_tokens ["(", "print", "a", "10", ")", ")"] ≠
      .error .syntaxCloseParen := by
  refine ⟨rfl, fun h => ?_⟩
  exact Except.noConfusion h

/-- C1, amended: reading the token sequence
`["(", "print", "a", "10", ")", ")"]` succeeds with `(print a 10)`, leaving
the trailing stray `)` unconsumed; in general the reader fails with
SyntaxError "unexpected )" exactly when the token at which an expression
read begins is `)` — at every other position a `)` only terminates a list,
and tokens after the first complete expression are never examined. -/
theorem C1_amended_closeParen :
    read_from_tokens ["(", "print", "a", "10", ")", ")"] =
      .ok (.list [.sym "print", .sym "a", .int 10], [")"]) ∧
    (∀ ts, read_from_tokens ts = .error .syntaxCloseParen ↔
      ∃ rest, ts = ")" :: rest) :=
  ⟨rfl, read_closeParen_iff⟩

/-- C3 counterexample: the claim says that running out of tokens in the
middle of an unterminated list fails with SyntaxError "unexpected end of
input"; in fact the loop guard `while tokens[0] != ')'` indexes the
exhausted list and the reader dies with the host `IndexError`, not a
`SyntaxError`. -/
theorem C3_counterexample :
    read_from_tokens ["(", "a"] = .error .indexError ∧
    read_from_tokens ["(", "a"] ≠ .error .syntaxEOF := by
  refine ⟨rfl, fun h => ?_⟩
  exact Err.noConfusion (Except.error.inj h)

/-- C3, amended: the reader fails with SyntaxError "unexpected EOF while
reading" exactly when it is invoked on an empty token sequence (so
`parse("")` does); when the tokens run out in the middle of an unterminated
list the failure is the host `IndexError` from `tokens[0]` instead. -/
theorem C3_amended_eof :
    parse "" = .error .syntaxEOF ∧
    (∀ ts, read_from_tokens ts = .error .syntaxEOF ↔ ts = []) ∧
    read_from_tokens ["("] = .error .indexError ∧
    read_from_tokens ["(", "a"] = .error .indexError ∧
    read_from_tokens ["(", "(", "a", ")"] = .error .indexError :=
  ⟨rfl, read_eof_iff, rfl, rfl, rfl⟩

/-- C8: the tokenizer is a pure total function (empty input gives the empty
token sequence), on `"(begin (define a 10) (* a 3))"` it yields exactly the
13 expected tokens, reading them yields
`[begin, [define, a, 10], [*, a, 3]]` with `10` and `3` as exact integers,
and atom classification tries the exact-integer parse first, then the float
parse, and otherwise yields the Symbol verbatim. -/
theorem C8_tokenize_read_classify :
    tokenize "(begin (define a 10) (* a 3))" =
      ["(", "begin", "(", "define", "a", "10", ")", "(", "*", "a", "3", ")", ")"] ∧
    tokenize "" = [] ∧
    read_from_tokens (tokenize "(begin (define a 10) (* a 3))") =
      .ok (.list [.sym "begin", .list [.sym "define", .sym "a", .int 10],
        .list [.sym "*", .sym "a", .int 3]], []) ∧
    parse "(begin (define a 10) (* a 3))" =
      .ok (.list [.sym "begin", .list [.sym "define", .sym "a", .int 10],
        .list [.sym "*", .sym "a", .int 3]]) ∧
    (∀ t, (∃ n, parseInt? t = some n ∧ atom t = .int n) ∨
      (parseInt? t = Option.none ∧
        ∃ q, parseFloat? t = some q ∧ atom t = .float q) ∨
      (parseInt? t = Option.none ∧ parseFloat? t = Option.none ∧
        atom t = .sym t)) := by
  refine ⟨rfl, rfl, rfl, rfl, ?_⟩
  intro t
  cases hi : parseInt? t with
  | some n => exact Or.inl ⟨n, rfl, by simp [atom, hi]⟩
  | none =>
    cases hf : parseFloat? t with
    | some q => exact Or.inr (Or.inl ⟨rfl, q, rfl, by simp [atom, hi, hf]⟩)
    | none => exact Or.inr (Or.inr ⟨rfl, rfl, by simp [atom, hi, hf]⟩)

/-- C10: `parse` returns the expression built from the prefix of the token
sequence forming the first complete expression and silently discards the
rest: `parse "1 2"` is `1`, `parse "(a) b"` is `[a]`; in general a
successful read splits the tokens into a consumed prefix — which parses by
itself, to the same expression, whatever follows it — and the untouched
remainder, and that prefix is the only prefix that parses completely (hence
the shortest). -/
theorem C10_first_expression :
    parse "1 2" = .ok (.int 1) ∧
    parse "(a) b" = .ok (.list [.sym "a"]) ∧
    (∀ ts e rem, read_from_tokens ts = .ok (e, rem) →
      ∃ c, ts = c ++ rem ∧ read_from_tokens c = .ok (e, []) ∧
        (∀ u, read_from_tokens (c ++ u) = .ok (e, u)) ∧
        (∀ c₁ c₂ e', ts = c₁ ++ c₂ → read_from_tokens c₁ = .ok (e', []) →
          c₁ = c ∧ e' = e ∧ c₂ = rem)) ∧
    (∀ s e rem, read_from_tokens (tokenize s) = .ok (e, rem) →
      parse s = .ok e) := by
  refine ⟨rfl, rfl, ?_, ?_⟩
  · intro ts e rem h
    obtain ⟨c, rfl, hc, hext⟩ := read_from_tokens_prefixSplit ts e rem h
    refine ⟨c, rfl, hc, hext, ?_⟩
    intro c₁ c₂ e' hsplit h1
    obtain ⟨c', hc', -, hext'⟩ := read_from_tokens_prefixSplit c₁ e' [] h1
    rw [List.append_nil] at hc'
    subst hc'
    have hts : read_from_tokens (c₁ ++ c₂) = .ok (e', c₂) := hext' c₂
    rw [← hsplit] at hts
    rw [h] at hts
    obtain ⟨he, hrem⟩ : e = e' ∧ rem = c₂ := by
      have := Except.ok.inj hts
      exact ⟨congrArg Prod.fst this, congrArg Prod.snd this⟩
    subst he
    subst hrem
    refine ⟨?_, rfl, rfl⟩
    have : c₁ ++ rem = c ++ rem := hsplit.symm
    exact List.append_cancel_right this
  · intro s e rem h
    show (match read_from_tokens (tokenize s) with
      | Except.error er => Except.error er
      | Except.ok (e, _) => Except.ok e) = Except.ok e
    rw [h]

/-- C10 witness: the general prefix property instantiated on the tokens of
`"1 2"`. -/
theorem C10_first_expression_witness :
    ∃ c, ["1", "2"] = c ++ ["2"] ∧ read_from_tokens c = .ok (.int 1, []) ∧
      (∀ u, read_from_tokens (c ++ u) = .ok (.int 1, u)) ∧
      (∀ c₁ c₂ e', ["1", "2"] = c₁ ++ c₂ →
        read_from_tokens c₁ = .ok (e', []) →
        c₁ = c ∧ e' = .int 1 ∧ c₂ = ["2"]) :=
  C10_first_expression.2.2.1 ["1", "2"] (.int 1) ["2"] rfl

/-- C2: a list headed by `print` executes exactly the `define` logic —
`Sexp.eval` dispatches `x[0] == 'define' or x[0] == 'print'` into one arm —
so for every tail, every environment, every state and every fuel the two
evaluations are literally equal (same result, same final state, including
the output stream: nothing is printed beyond what evaluating the expression
itself would print); on the well-formed tail `(print s e)` the branch
evaluates `e` in the current environment, binds the result under `s` in the
current frame, and returns `None`. -/
theorem C2_print_aliases_define :
    (∀ f t i st, eval f (.list (.sym "print" :: t)) i st =
      eval f (.list (.sym "define" :: t)) i st) ∧
    (∀ f s e i st, eval (f + 1) (.list [.sym "print", .sym s, e]) i st =
      match eval f e i st with
      | Except.error er => Except.error er
      | Except.ok (v, st₁) => Except.ok (Value.none, setVar st₁ i s v)) :=
  ⟨eval_print_eq_define, fun _ _ _ _ _ => rfl⟩

/-- Head of `repExpr k` is never a special form. -/
theorem repExpr_not_special : ∀ k, isSpecialHead (repExpr k) = false := by
  intro k
  cases k with
  | zero => rfl
  | succ k => rfl

/-- C4: invoking a `Procedure` builds a fresh frame pairing its parameters
with the arguments, parented at the **captured defining** frame `d` (the
call-site environment is not even an input of the dispatch), and evaluates
the body there; consequently, after `(define twice (lambda (x) (* 2 x)))`
and `(define repeat (lambda (f) (lambda (x) (f (f x)))))`, the nested
application `((repeat^k twice) x)` evaluates to `x * 2^(2^k)` for every
`k ≥ 0` and every integer `x` — in particular `(twice 5) = 10`,
`((repeat twice) 10) = 40` and `((repeat (repeat twice)) 10) = 160`. -/
theorem C4_lexical_closures :
    (∀ f parms body d args st,
      apply f (.procedure parms body d) args st =
        match bindParams parms args with
        | Except.error e => Except.error e
        | Except.ok bl => eval f body st.frames.length (pushFrame st bl d)) ∧
    Evals twiceDef 0 initState .none stT ∧
    Evals repeatDef 0 stT .none stTR ∧
    (∀ (k : Nat) (x : Int), ∃ stF,
      Evals (.list [repExpr k, .int x]) 0 stTR (.int (x * 2 ^ 2 ^ k)) stF) ∧
    (∃ st₁, Evals (.list [repExpr 0, .int 5]) 0 stTR (.int 10) st₁) ∧
    (∃ st₂, Evals (.list [repExpr 1, .int 10]) 0 stTR (.int 40) st₂) ∧
    (∃ st₃, Evals (.list [repExpr 2, .int 10]) 0 stTR (.int 160) st₃) := by
  have hgen : ∀ (k : Nat) (x : Int), ∃ stF,
      Evals (.list [repExpr k, .int x]) 0 stTR (.int (x * 2 ^ 2 ^ k)) stF := by
    intro k x
    obtain ⟨st', hext, happ⟩ := gVal_doubles k (stR k) (heapExt_refl _) x
    refine ⟨st', ?_⟩
    rw [show x * 2 ^ 2 ^ k = 2 ^ 2 ^ k * x from mul_comm _ _]
    exact evals_app (repExpr_not_special k) (repExpr_evals k)
      (evalsArgs_cons (evals_int 0 (stR k) x) (evalsArgs_nil 0 (stR k))) happ
  refine ⟨fun f parms body d args st => rfl, ⟨3, rfl⟩, ⟨3, rfl⟩, hgen, ?_, ?_, ?_⟩
  · have h := hgen 0 5
    norm_num at h
    exact h
  · have h := hgen 1 10
    norm_num at h
    exact h
  · have h := hgen 2 10
    norm_num at h
    exact h

/-- C5: resolving a symbol walks the chain innermost-first.  If the symbol
is bound in no frame of a well-formed chain, evaluation fails with the
unbound-symbol error (`AttributeError` in the source) — never a silent
default; if it is bound, evaluation returns the value from the innermost
frame holding it, leaving the state untouched. -/
theorem C5_resolution :
    (∀ st i s f, chainOkB st i = true →
      unboundOnB st s (chain st i) = true →
      eval (f + 1) (.sym s) i st = .error .attributeError) ∧
    (∀ st i s f j c₁ c₂ fr v, chainOkB st i = true →
      chain st i = c₁ ++ j :: c₂ → unboundOnB st s c₁ = true →
      st.frames[j]? = some fr → lookupB fr.bindings s = some v →
      eval (f + 1) (.sym s) i st = .ok (v, st)) := by
  constructor
  · intro st i s f hOk hUb
    rw [eval_sym_eq, find_unbound i hOk hUb]
  · intro st i s f j c₁ c₂ fr v hOk hch hUb hf hv
    rw [eval_sym_eq, find_bound c₁ i hOk hch hUb hf hv]
    simp [hf, hv]

/-- C5 witness: a two-frame chain (a child of the interpreter's global
frame); the unbound symbol `zz` errors at depth 1, and `x`, bound in both
frames, resolves to the innermost binding. -/
theorem C5_resolution_witness :
    eval 9 (.sym "zz") 1
      ⟨[⟨[("x", .int 1)], Option.none⟩, ⟨[("x", .int 2)], some 0⟩], []⟩ =
      .error .attributeError ∧
    eval 9 (.sym "x") 1
      ⟨[⟨[("x", .int 1)], Option.none⟩, ⟨[("x", .int 2)], some 0⟩], []⟩ =
      .ok (.int 2,
        ⟨[⟨[("x", .int 1)], Option.none⟩, ⟨[("x", .int 2)], some 0⟩], []⟩) := by
  constructor
  · exact C5_resolution.1
      ⟨[⟨[("x", .int 1)], Option.none⟩, ⟨[("x", .int 2)], some 0⟩], []⟩
      1 "zz" 8 (by decide) (by decide)
  · exact C5_resolution.2
      ⟨[⟨[("x", .int 1)], Option.none⟩, ⟨[("x", .int 2)], some 0⟩], []⟩
      1 "x" 8 1 [] [0] ⟨[("x", .int 2)], some 0⟩ (.int 2)
      (by decide) (by decide) (by decide) rfl rfl

/-- C6 counterexample: the claim says the `and` primitive computes the
host's native boolean conjunction; the source installs `operator.and_`,
which is the bitwise `&`.  On `(and 2 1)` the interpreter returns `2 & 1 =
0`, while Python's boolean `2 and 1` (modelled by `pyBoolAnd`) is `1` —
truthy, not falsy. -/
theorem C6_counterexample :
    eval 10 (.list [.sym "and", .int 2, .int 1]) 0 initState =
      .ok (.int 0, initState) ∧
    pyBoolAnd (.int 2) (.int 1) = .int 1 ∧
    (Value.int 0 : Value) ≠ .int 1 := by
  refine ⟨rfl, rfl, ?_⟩
  intro h
  simp at h

/-- C6, amended: `and`, `or`, `not` are ordinary eager applications, not
special forms, so both operands of `and`/`or` are evaluated regardless of
the first operand's truthiness (an unbound second operand faults even when
short-circuiting would have skipped it); the primitives compute the host's
**bitwise** `&`/`|` on integers — not the boolean `and`/`or` — and `not`
computes the boolean complement; `(and 1 0) = 0`, `(or 1 0) = 1`, and
`(not 1)` is the host's `False`. -/
theorem C6_amended_bitwise :
    isSpecialHead (.sym "and") = false ∧
    isSpecialHead (.sym "or") = false ∧
    isSpecialHead (.sym "not") = false ∧
    eval 10 (.list [.sym "and", .int 1, .int 0]) 0 initState =
      .ok (.int 0, initState) ∧
    eval 10 (.list [.sym "or", .int 1, .int 0]) 0 initState =
      .ok (.int 1, initState) ∧
    eval 10 (.list [.sym "not", .int 1]) 0 initState =
      .ok (.bool false, initState) ∧
    eval 10 (.list [.sym "and", .int 0, .sym "nosuch"]) 0 initState =
      .error .attributeError ∧
    eval 10 (.list [.sym "or", .int 1, .sym "nosuch"]) 0 initState =
      .error .attributeError ∧
    (∀ a b : Int, primAnd (.int a) (.int b) = .ok (.int (Int.land a b))) ∧
    (∀ a b : Int, primOr (.int a) (.int b) = .ok (.int (Int.lor a b))) ∧
    (∀ v : Value, applyPrim .notP [v] initState = .ok (.bool (!truthy v), initState)) :=
  ⟨rfl, rfl, rfl, rfl, rfl, rfl, rfl, rfl, fun _ _ => rfl, fun _ _ => rfl,
    fun _ => rfl⟩

/-- C7 counterexample: the claim says evaluating `(define s e)` changes
nothing but the binding of `s` in the current frame; but `e`'s own
evaluation can mutate the frame first — `(define a (define b 1))` also
installs a binding for `b` (and `a` receives `None`, the value of the inner
`define`). -/
theorem C7_counterexample :
    eval 10 (.list [.sym "define", .sym "a",
      .list [.sym "define", .sym "b", .int 1]]) 0 initState =
      .ok (.none, setVar (setVar initState 0 "b" (.int 1)) 0 "a" .none) ∧
    lookupB standard_env "b" = Option.none ∧
    (∃ fr, (setVar (setVar initState 0 "b" (.int 1)) 0 "a" .none).frames[(0 : Nat)]? =
      some fr ∧ lookupB fr.bindings "b" = some (.int 1)) :=
  ⟨rfl, rfl, ⟨_, rfl, rfl⟩⟩

/-- C7, amended: evaluating `(define s e)` first evaluates `e` (whose own
effects land in the state) and then performs one dict assignment on the
current frame; that assignment touches only the binding of `s` there —
every other frame of the heap (in particular every outer frame, even one
that also binds `s`: shadowed, not overwritten) and every other key of the
current frame are exactly as they were after evaluating `e`.  When `e` is a
literal, the original claim holds verbatim. -/
theorem C7_amended_define_frame_effect :
    (∀ f s e i st, eval (f + 1) (.list [.sym "define", .sym s, e]) i st =
      match eval f e i st with
      | Except.error er => Except.error er
      | Except.ok (v, st₁) => Except.ok (Value.none, setVar st₁ i s v)) ∧
    (∀ st i s v j, j ≠ i → (setVar st i s v).frames[j]? = st.frames[j]?) ∧
    (∀ st i s v fr, st.frames[i]? = some fr →
      (setVar st i s v).frames[i]? = some ⟨updateB fr.bindings s v, fr.outer⟩ ∧
      lookupB (updateB fr.bindings s v) s = some v ∧
      (∀ k, k ≠ s → lookupB (updateB fr.bindings s v) k = lookupB fr.bindings k)) ∧
    (∀ st i s v, (setVar st i s v).output = st.output) ∧
    (∀ f s i st (n : Int),
      eval (f + 2) (.list [.sym "define", .sym s, .int n]) i st =
        .ok (.none, setVar st i s (.int n))) := by
  refine ⟨fun _ _ _ _ _ => rfl, setVar_get_ne, ?_, fun _ _ _ _ => rfl,
    fun _ _ _ _ _ => rfl⟩
  intro st i s v fr hf
  exact ⟨setVar_get_self st i s v fr hf, lookupB_updateB_self _ _ _,
    fun k hk => lookupB_updateB_ne _ _ _ _ hk⟩

/-- C7 witness: updating `b` in the child frame leaves the global frame
untouched, and updating an existing frame rewrites only the given key. -/
theorem C7_amended_witness :
    (setVar ⟨[⟨[("a", .int 1)], Option.none⟩, ⟨[], some 0⟩], []⟩ 1 "b"
      (.int 5)).frames[(0 : Nat)]? = some ⟨[("a", .int 1)], Option.none⟩ ∧
    ((setVar ⟨[⟨[("a", .int 1)], Option.none⟩], []⟩ 0 "b"
      (.int 5)).frames[(0 : Nat)]? =
        some ⟨updateB [("a", .int 1)] "b" (.int 5), Option.none⟩ ∧
      lookupB (updateB [("a", .int 1)] "b" (.int 5)) "b" = some (.int 5) ∧
      (∀ k, k ≠ "b" → lookupB (updateB [("a", .int 1)] "b" (.int 5)) k =
        lookupB [("a", .int 1)] k)) := by
  constructor
  · exact C7_amended_define_frame_effect.2.1
      ⟨[⟨[("a", .int 1)], Option.none⟩, ⟨[], some 0⟩], []⟩ 1 "b" (.int 5) 0
      (by decide)
  · exact C7_amended_define_frame_effect.2.2.1
      ⟨[⟨[("a", .int 1)], Option.none⟩], []⟩ 0 "b" (.int 5)
      ⟨[("a", .int 1)], Option.none⟩ rfl

/-- C9: invoking a `Procedure` with `n` arguments and `p` (distinct)
parameters binds exactly `zip(parms, args)` — the first `min(p, n)`
parameters, positionally — in the fresh frame and evaluates the body, never
raising an arity error: excess arguments are silently dropped, and an
unbound excess parameter only faults later, as an unbound symbol, if the
body references it. -/
theorem C9_positional_binding :
    (∀ f (ps : List String) body d args st, ps.Nodup →
      apply f (.procedure (.list (ps.map Sexpr.sym)) body d) args st =
        eval f body st.frames.length (pushFrame st (ps.zip args) d)) ∧
    (∀ (ps : List String) (args : List Value),
      (ps.zip args).length = min ps.length args.length) ∧
    eval 10 (.list [.list [.sym "lambda", .list [.sym "x"], .sym "x"],
      .int 1, .int 2]) 0 initState =
      .ok (.int 1, pushFrame initState [("x", .int 1)] 0) ∧
    eval 10 (.list [.list [.sym "lambda", .list [.sym "x", .sym "y"], .sym "y"],
      .int 1]) 0 initState = .error .attributeError := by
  refine ⟨?_, fun ps args => List.length_zip ps args, rfl, rfl⟩
  intro f ps body d args st hnd
  show (match bindParams (.list (ps.map Sexpr.sym)) args with
    | Except.error e => Except.error e
    | Except.ok bl => eval f body st.frames.length (pushFrame st bl d)) =
    eval f body st.frames.length (pushFrame st (ps.zip args) d)
  rw [bindParams_nodup ps args hnd]

/-- C9 witness: one declared parameter, two supplied arguments — the frame
pairs `x` with the first argument and the call proceeds with no arity
error. -/
theorem C9_positional_binding_witness :
    apply 5 (.procedure (.list [.sym "x"]) (.sym "x") 0)
      [.int 1, .int 2] initState =
      eval 5 (.sym "x") initState.frames.length
        (pushFrame initState (["x"].zip [Value.int 1, Value.int 2]) 0) :=
  C9_positional_binding.1 5 ["x"] (.sym "x") 0 [.int 1, .int 2] initState
    (by simp)
